import Mathlib

/-!
Shallow embedding of the stochastic composition engine of music21-composer-mcp
(src/composer_mcp/core/melody.py and src/composer_mcp/core/reharmonize.py),
together with proofs settling the frozen claims about it.

Modelling conventions:
* Python floats are modelled by exact rationals; every score in the source is a
  finite sum of decimal constants, so the structure of the computation (which
  bonuses are added, which comparisons are taken) is captured exactly.
* The music21 library is an external collaborator (spec section 1 declares
  notation parsing, pitch-set resolution and key analysis out of scope).  Its
  outputs are parameters of the embedding: a KeyModel carries the per-octave
  scale pitches produced by scale.getPitches and the tonic name; a ResolveEnv
  carries roman-numeral-to-pitch-set and bass resolution.  All theorems hold
  for every instantiation of these parameters.
* Pythons Mersenne-Twister randomness is modelled by an explicit stream of
  rationals consumed in call order; seeding is a function from the seed to the
  stream.  All claims are proved for every stream, or use the stream to state
  determinism.
* Fallible Python code (raising exceptions) is embedded with Except/Option;
  a ZeroDivisionError, IndexError or ValueError raised by Python primitives is
  a corresponding error value.
-/

namespace ComposerMCP

/-- A concrete pitch: MIDI number plus display spelling.  The source compares
pitches by their midi attribute; the name is used only for tonic matching. -/
structure Pitch where
  midi : Int
  name : String
deriving DecidableEq, Repr

def defaultPitch : Pitch := ⟨0, ""⟩

/-- Explicit random source: a stream of rational draws plus a cursor.  Models a
seeded random.Random instance (or the reseeded module-global generator in
reharmonize.py); each primitive consumes one draw. -/
structure Rng where
  vals : Nat → ℚ
  idx : Nat

/-- Model of random.random(): one draw from the stream. -/
def rngNext (r : Rng) : ℚ × Rng :=
  (r.vals r.idx, ⟨r.vals, r.idx + 1⟩)

/-- Model of random.uniform(a, b) = a + (b-a)*random(). -/
def rngUniform (a b : ℚ) (r : Rng) : ℚ × Rng :=
  let (v, r') := rngNext r
  (a + (b - a) * v, r')

/-- Model of rng.choice(l): consumes one draw and returns an element of l
(the default is returned only on the empty list, where Python raises). -/
def rngChoice (l : List α) (d : α) (r : Rng) : α × Rng :=
  let v := (rngNext r).1
  (l.getD ((Int.toNat ⌊v * l.length⌋) % l.length) d, (rngNext r).2)

theorem rngChoice_mem (l : List α) (d : α) (r : Rng) (h : l ≠ []) :
    (rngChoice l d r).1 ∈ l := by
  have hl : 0 < l.length := List.length_pos.mpr h
  have hlt : (Int.toNat ⌊(rngNext r).1 * l.length⌋) % l.length < l.length :=
    Nat.mod_lt _ hl
  show l.getD ((Int.toNat ⌊(rngNext r).1 * l.length⌋) % l.length) d ∈ l
  rw [List.getD_eq_getElem _ _ hlt]
  exact List.getElem_mem _

/-- Python min(l, key=f) for nonempty l: the first element with minimal key
(later elements replace the current best only when strictly smaller). -/
def pyMinBy (f : α → Int) : List α → Option α
  | [] => none
  | x :: xs => some (xs.foldl (fun b y => if f y < f b then y else b) x)

/-- Total wrapper: Python min raises ValueError on an empty sequence; callers
in the source only reach it with provably nonempty lists. -/
def pyMinD (f : α → Int) (l : List α) (d : α) : α :=
  (pyMinBy f l).getD d

theorem foldl_minStep_mem (f : α → Int) (l : List α) (b : α) :
    l.foldl (fun b y => if f y < f b then y else b) b = b ∨
      l.foldl (fun b y => if f y < f b then y else b) b ∈ l := by
  induction l generalizing b with
  | nil => left; rfl
  | cons c cs ih =>
    simp only [List.foldl_cons]
    rcases ih (if f c < f b then c else b) with h | h
    · rw [h]
      by_cases hc : f c < f b
      · right; simp [hc]
      · left; simp [hc]
    · right; exact List.mem_cons_of_mem _ h

theorem pyMinBy_mem (f : α → Int) (l : List α) (x : α)
    (h : pyMinBy f l = some x) : x ∈ l := by
  cases l with
  | nil => simp [pyMinBy] at h
  | cons a as =>
    simp only [pyMinBy, Option.some.injEq] at h
    subst h
    rcases foldl_minStep_mem f as a with h | h
    · rw [h]; exact List.mem_cons_self a as
    · exact List.mem_cons_of_mem _ h

theorem pyMinD_mem (f : α → Int) (l : List α) (d : α) (h : l ≠ []) :
    pyMinD f l d ∈ l := by
  cases l with
  | nil => exact absurd rfl h
  | cons a as =>
    have : ∃ x, pyMinBy f (a :: as) = some x := ⟨_, rfl⟩
    rcases this with ⟨x, hx⟩
    rw [pyMinD, hx]
    exact pyMinBy_mem f _ x hx

/-- One insertion step of Python sorted(key=key, reverse=True): the new element
is placed after every element with a greater-or-equal key (stable descending). -/
def pyInsertDesc [LinearOrder β] (key : α → β) (x : α) : List α → List α
  | [] => [x]
  | y :: ys => if key x < key y then y :: pyInsertDesc key x ys else x :: y :: ys

/-- Python sorted(l, key=key, reverse=True): stable descending sort. -/
def pySortDesc [LinearOrder β] (key : α → β) (l : List α) : List α :=
  l.foldr (pyInsertDesc key) []

/-- One insertion step of Python sorted(key=key) ascending and stable. -/
def pyInsertAsc [LinearOrder β] (key : α → β) (x : α) : List α → List α
  | [] => [x]
  | y :: ys => if key y < key x then y :: pyInsertAsc key x ys else x :: y :: ys

/-- Python sorted(l, key=key): stable ascending sort. -/
def pySortAsc [LinearOrder β] (key : α → β) (l : List α) : List α :=
  l.foldr (pyInsertAsc key) []

theorem mem_pyInsertDesc [LinearOrder β] (key : α → β) (x : α) (l : List α) (z : α) :
    z ∈ pyInsertDesc key x l ↔ z = x ∨ z ∈ l := by
  induction l with
  | nil => simp [pyInsertDesc]
  | cons y ys ih =>
    by_cases hc : key x < key y
    · simp only [pyInsertDesc, hc, if_true, List.mem_cons, ih]
      tauto
    · simp only [pyInsertDesc, hc, if_false, List.mem_cons]

theorem mem_pySortDesc [LinearOrder β] (key : α → β) (l : List α) (z : α) :
    z ∈ pySortDesc key l ↔ z ∈ l := by
  induction l with
  | nil => simp [pySortDesc]
  | cons y ys ih =>
    simp only [pySortDesc, List.foldr_cons, List.mem_cons]
    rw [mem_pyInsertDesc]
    rw [pySortDesc] at ih
    rw [ih]

theorem mem_pyInsertAsc [LinearOrder β] (key : α → β) (x : α) (l : List α) (z : α) :
    z ∈ pyInsertAsc key x l ↔ z = x ∨ z ∈ l := by
  induction l with
  | nil => simp [pyInsertAsc]
  | cons y ys ih =>
    by_cases hc : key y < key x
    · simp only [pyInsertAsc, hc, if_true, List.mem_cons, ih]
      tauto
    · simp only [pyInsertAsc, hc, if_false, List.mem_cons]

theorem mem_pySortAsc [LinearOrder β] (key : α → β) (l : List α) (z : α) :
    z ∈ pySortAsc key l ↔ z ∈ l := by
  induction l with
  | nil => simp [pySortAsc]
  | cons y ys ih =>
    simp only [pySortAsc, List.foldr_cons, List.mem_cons]
    rw [mem_pyInsertAsc]
    rw [pySortAsc] at ih
    rw [ih]

theorem pairwise_pyInsertDesc [LinearOrder β] (key : α → β) (x : α) (l : List α)
    (h : l.Pairwise (fun a b => key b ≤ key a)) :
    (pyInsertDesc key x l).Pairwise (fun a b => key b ≤ key a) := by
  induction l with
  | nil => simp [pyInsertDesc]
  | cons y ys ih =>
    rcases List.pairwise_cons.mp h with ⟨hy, hys⟩
    by_cases hc : key x < key y
    · simp only [pyInsertDesc, hc, if_true]
      refine List.pairwise_cons.mpr ⟨?_, ih hys⟩
      intro z hz
      rcases (mem_pyInsertDesc key x ys z).mp hz with rfl | hz
      · exact le_of_lt hc
      · exact hy z hz
    · simp only [pyInsertDesc, hc, if_false]
      refine List.pairwise_cons.mpr ⟨?_, h⟩
      intro z hz
      rcases List.mem_cons.mp hz with rfl | hz
      · exact le_of_not_lt hc
      · exact le_trans (hy z hz) (le_of_not_lt hc)

theorem pairwise_pySortDesc [LinearOrder β] (key : α → β) (l : List α) :
    (pySortDesc key l).Pairwise (fun a b => key b ≤ key a) := by
  induction l with
  | nil => simp [pySortDesc]
  | cons y ys ih => exact pairwise_pyInsertDesc key y _ ih

/-! Melody generation (melody.py). -/

inductive ContourType
  | arch | ascending | descending | wave | static
deriving DecidableEq, Repr

inductive RhythmicDensity
  | sparse | medium | dense
deriving DecidableEq, Repr

/-- Errors raised along the generate_melody path: repository-defined typed
errors plus the Python primitive failures the code can hit. -/
inductive GenError
  | invalidRange | unsatisfiable | zeroDivision | indexError | valueError
  | couldNotGenerate
deriving DecidableEq, Repr

/-- RHYTHM_PATTERNS table of melody.py, quarter-note units, exact rationals. -/
def RHYTHM_PATTERNS : RhythmicDensity → List (List ℚ)
  | .sparse => [[2, 2], [4], [3, 1], [2, 1, 1]]
  | .medium => [[1, 1, 1, 1], [1, 1, 2], [2, 1, 1], [1.5, 0.5, 1, 1],
      [1, 1, 1, 0.5, 0.5]]
  | .dense => [[0.5, 0.5, 0.5, 0.5, 1, 1],
      [0.5, 0.5, 0.5, 0.5, 0.5, 0.5, 0.5, 0.5],
      [1, 0.5, 0.5, 0.5, 0.5, 1], [0.25, 0.25, 0.5, 0.5, 0.5, 1, 1]]

/-- Inner for-loop of generate_rhythm_pattern: append each duration of the
drawn pattern while it fits; on overshoot append the exact remainder (if
positive) and stop. -/
def patternFill (total : ℚ) : List ℚ → List ℚ → List ℚ
  | rhythm, [] => rhythm
  | rhythm, d :: rest =>
    if rhythm.sum + d ≤ total then patternFill total (rhythm ++ [d]) rest
    else if 0 < total - rhythm.sum then rhythm ++ [total - rhythm.sum] else rhythm

/-- Outer while-loop of generate_rhythm_pattern, with explicit fuel: the source
loop terminates because every iteration either reaches the target exactly or
grows the sum by at least 1/4 (the smallest palette duration). -/
def rhythmLoop (total : ℚ) (patterns : List (List ℚ)) :
    Nat → List ℚ → Rng → List ℚ × Rng
  | 0, rhythm, rng => (rhythm, rng)
  | fuel + 1, rhythm, rng =>
    if rhythm.sum < total then
      let c := rngChoice patterns [] rng
      rhythmLoop total patterns fuel (patternFill total rhythm c.1) c.2
    else (rhythm, rng)

/-- generate_rhythm_pattern of melody.py.  The time signature arrives as the
two integers of the validated "b/u" string; a zero beat unit raises
ZeroDivisionError in the source. -/
def generate_rhythm_pattern (density : RhythmicDensity) (tsBeats tsUnit : Nat)
    (numMeasures : Nat) (rng : Rng) : Except GenError (List ℚ × Rng) :=
  if tsUnit = 0 then throw .zeroDivision
  else
    let quarterPerBeat : ℚ := 4 / tsUnit
    let totalQuarters : ℚ := tsBeats * quarterPerBeat * numMeasures
    let fuel := (Int.toNat ⌈4 * totalQuarters⌉) + 1
    pure (rhythmLoop totalQuarters (RHYTHM_PATTERNS density) fuel [] rng)

theorem patternFill_sum_le (total : ℚ) (rhythm pat : List ℚ)
    (h : rhythm.sum ≤ total) : (patternFill total rhythm pat).sum ≤ total := by
  induction pat generalizing rhythm with
  | nil => simpa [patternFill] using h
  | cons d rest ih =>
    simp only [patternFill]
    by_cases hd : rhythm.sum + d ≤ total
    · simp only [hd, if_true]
      exact ih _ (by simpa using hd)
    · simp only [hd, if_false]
      by_cases hr : 0 < total - rhythm.sum
      · simp only [hr, if_true, List.sum_append, List.sum_cons, List.sum_nil]
        linarith
      · simpa [hr] using h

theorem patternFill_sum_mono (total : ℚ) (pat : List ℚ) :
    ∀ rhythm : List ℚ, (∀ d ∈ pat, 0 ≤ d) →
      rhythm.sum ≤ (patternFill total rhythm pat).sum := by
  induction pat with
  | nil => intro rhythm _; simp [patternFill]
  | cons d rest ih =>
    intro rhythm hpat
    have hd0 : 0 ≤ d := hpat d (List.mem_cons_self d rest)
    simp only [patternFill]
    by_cases hd : rhythm.sum + d ≤ total
    · simp only [hd, if_true]
      have h1 := ih (rhythm ++ [d]) (fun x hx => hpat x (List.mem_cons_of_mem _ hx))
      simp only [List.sum_append, List.sum_cons, List.sum_nil] at h1
      linarith
    · simp only [hd, if_false]
      by_cases hr : 0 < total - rhythm.sum
      · simp only [hr, if_true, List.sum_append, List.sum_cons, List.sum_nil]
        linarith
      · simp [hr]

theorem patternFill_progress (total : ℚ) (rhythm pat : List ℚ)
    (hlt : rhythm.sum < total) (hne : pat ≠ [])
    (hmin : ∀ d ∈ pat, (1 : ℚ)/4 ≤ d) :
    (patternFill total rhythm pat).sum = total ∨
      rhythm.sum + 1/4 ≤ (patternFill total rhythm pat).sum := by
  cases pat with
  | nil => exact absurd rfl hne
  | cons d rest =>
    have hd14 : (1 : ℚ)/4 ≤ d := hmin d (List.mem_cons_self d rest)
    simp only [patternFill]
    by_cases hd : rhythm.sum + d ≤ total
    · simp only [hd, if_true]
      right
      have := patternFill_sum_mono total rest (rhythm ++ [d])
        (fun x hx => le_trans (by norm_num) (hmin x (List.mem_cons_of_mem _ hx)))
      simp only [List.sum_append, List.sum_cons, List.sum_nil] at this
      linarith
    · simp only [hd, if_false]
      have hr : 0 < total - rhythm.sum := by linarith
      simp only [hr, if_true]
      left
      simp only [List.sum_append, List.sum_cons, List.sum_nil]
      ring

theorem patternFill_pos (total : ℚ) (rhythm pat : List ℚ)
    (hrhythm : ∀ d ∈ rhythm, 0 < d) (hpat : ∀ d ∈ pat, 0 < d) :
    ∀ d ∈ patternFill total rhythm pat, 0 < d := by
  induction pat generalizing rhythm with
  | nil => simpa [patternFill] using hrhythm
  | cons d rest ih =>
    simp only [patternFill]
    by_cases hd : rhythm.sum + d ≤ total
    · simp only [hd, if_true]
      refine ih _ ?_ (fun x hx => hpat x (List.mem_cons_of_mem _ hx))
      intro x hx
      rcases List.mem_append.mp hx with hx | hx
      · exact hrhythm x hx
      · rcases List.mem_singleton.mp hx with rfl
        exact hpat x (List.mem_cons_self x rest)
    · simp only [hd, if_false]
      by_cases hr : 0 < total - rhythm.sum
      · simp only [hr, if_true]
        intro x hx
        rcases List.mem_append.mp hx with hx | hx
        · exact hrhythm x hx
        · rcases List.mem_singleton.mp hx with rfl
          exact hr
      · simpa [hr] using hrhythm

theorem rhythmLoop_spec (total : ℚ) (patterns : List (List ℚ))
    (hpats : patterns ≠ [])
    (hpat : ∀ pat ∈ patterns, pat ≠ [] ∧ ∀ d ∈ pat, (1 : ℚ)/4 ≤ d) :
    ∀ (fuel : Nat) (rhythm : List ℚ) (rng : Rng),
      rhythm.sum ≤ total → 4 * (total - rhythm.sum) ≤ (fuel : ℚ) →
      (∀ d ∈ rhythm, 0 < d) →
      (rhythmLoop total patterns fuel rhythm rng).1.sum = total ∧
        (∀ d ∈ (rhythmLoop total patterns fuel rhythm rng).1, 0 < d) := by
  intro fuel
  induction fuel with
  | zero =>
    intro rhythm rng hle hfuel hpos
    have : total ≤ rhythm.sum := by
      push_cast at hfuel
      linarith
    have hsum : rhythm.sum = total := le_antisymm hle this
    exact ⟨hsum, hpos⟩
  | succ n ih =>
    intro rhythm rng hle hfuel hpos
    simp only [rhythmLoop]
    by_cases hlt : rhythm.sum < total
    · simp only [hlt, if_true]
      set pat := (rngChoice patterns [] rng).1 with hpatdef
      have hmem : pat ∈ patterns := rngChoice_mem patterns [] rng hpats
      rcases hpat pat hmem with ⟨hne, hmin⟩
      have hfillle : (patternFill total rhythm pat).sum ≤ total :=
        patternFill_sum_le total rhythm pat hle
      have hfillpos : ∀ d ∈ patternFill total rhythm pat, 0 < d :=
        patternFill_pos total rhythm pat hpos
          (fun d hd => lt_of_lt_of_le (by norm_num) (hmin d hd))
      rcases patternFill_progress total rhythm pat hlt hne hmin with heq | hge
      · exact ih _ _ hfillle (by rw [heq]; simp) hfillpos
      · refine ih _ _ hfillle ?_ hfillpos
        push_cast at hfuel ⊢
        linarith
    · simp only [hlt, if_false]
      have hsum : rhythm.sum = total := le_antisymm hle (le_of_not_lt hlt)
      exact ⟨hsum, hpos⟩

theorem RHYTHM_PATTERNS_spec (density : RhythmicDensity) :
    RHYTHM_PATTERNS density ≠ [] ∧
      ∀ pat ∈ RHYTHM_PATTERNS density, pat ≠ [] ∧ ∀ d ∈ pat, (1 : ℚ)/4 ≤ d := by
  cases density <;> refine ⟨by simp [RHYTHM_PATTERNS], ?_⟩ <;>
    · intro pat hpat
      simp only [RHYTHM_PATTERNS, List.mem_cons, List.not_mem_nil, or_false] at hpat
      rcases hpat with rfl | rfl | rfl | rfl | rfl <;>
        refine ⟨by simp, ?_⟩ <;>
        · intro d hd
          simp only [List.mem_cons, List.not_mem_nil, or_false] at hd
          rcases hd with rfl | rfl | rfl | rfl | rfl | rfl | rfl | rfl <;> norm_num

/-- Full contract of generate_rhythm_pattern: with a nonzero beat unit the
call succeeds, the durations are positive, their exact sum is
tsBeats * (4/tsUnit) * numMeasures, and the list is nonempty whenever that
target is positive. -/
theorem generate_rhythm_pattern_spec (density : RhythmicDensity)
    (tsBeats tsUnit numMeasures : Nat) (rng : Rng) (hu : tsUnit ≠ 0) :
    ∃ r rng', generate_rhythm_pattern density tsBeats tsUnit numMeasures rng =
        Except.ok (r, rng') ∧
      r.sum = (tsBeats : ℚ) * (4 / tsUnit) * numMeasures ∧
      (∀ d ∈ r, 0 < d) ∧
      (0 < (tsBeats : ℚ) * (4 / tsUnit) * numMeasures → r ≠ []) := by
  set total : ℚ := (tsBeats : ℚ) * (4 / tsUnit) * numMeasures with htotal
  have htotal_nonneg : 0 ≤ total := by
    rw [htotal]
    positivity
  set fuel := (Int.toNat ⌈4 * total⌉) + 1 with hfuel
  have hfuel_ge : 4 * (total - List.sum []) ≤ (fuel : ℚ) := by
    simp only [List.sum_nil, sub_zero, hfuel]
    have h1 : (4 : ℚ) * total ≤ (⌈4 * total⌉ : ℚ) := Int.le_ceil _
    have h2 : (0 : ℤ) ≤ ⌈4 * total⌉ := by
      apply Int.ceil_nonneg
      positivity
    have h3 : ((Int.toNat ⌈4 * total⌉ : ℤ) : ℚ) = ((⌈4 * total⌉ : ℤ) : ℚ) := by
      rw [Int.toNat_of_nonneg h2]
    push_cast
    push_cast at h3
    linarith
  rcases RHYTHM_PATTERNS_spec density with ⟨hpats, hpat⟩
  have hloop := rhythmLoop_spec total (RHYTHM_PATTERNS density) hpats hpat fuel []
    rng (by simpa using htotal_nonneg) hfuel_ge (by simp)
  refine ⟨(rhythmLoop total (RHYTHM_PATTERNS density) fuel [] rng).1,
    (rhythmLoop total (RHYTHM_PATTERNS density) fuel [] rng).2, ?_, ?_, ?_, ?_⟩
  · simp only [generate_rhythm_pattern, hu, if_false]
    rfl
  · exact hloop.1
  · exact hloop.2
  · intro hpos hnil
    rw [hnil] at hloop
    simp only [List.sum_nil] at hloop
    linarith [hloop.1]
/-- get_contour_bias of melody.py.  waveFn is the external float computation
math.sin(positionRatio * 4 * math.pi) of the wave branch, abstracted because
floating sin is an external primitive; no claim depends on its values. -/
def get_contour_bias (waveFn : ℚ → ℚ) (positionRatio : ℚ)
    (contour : Option ContourType) : ℚ :=
  match contour with
  | none => 0
  | some .arch => if positionRatio < 0.6 then 0.5 else -0.5
  | some .ascending => 0.4
  | some .descending => -0.4
  | some .wave => 0.4 * waveFn positionRatio
  | some .static => 0

/-- Index of the current pitch in the scale: first index with equal midi, else
the first index minimising chromatic distance (select_next_pitch lines
183-194).  On an empty scale the source's min over range(0) raises
ValueError; the total model returns index 0 there, so statements about the
selector carry a nonempty-scale hypothesis (its callers in generate_melody
always pass at least 3 pitches). -/
def currentScaleIdx (current : Pitch) (scalePitches : List Pitch) : Nat :=
  match scalePitches.findIdx? (fun p => p.midi == current.midi) with
  | some i => i
  | none =>
    (pyMinBy (fun i => (((scalePitches.getD i defaultPitch).midi - current.midi).natAbs : Int))
      (List.range scalePitches.length)).getD 0

/-- The max-leap filter: a candidate is skipped when its chromatic distance
from the current pitch exceeds the bound's semitones (melody.py 206-209). -/
def leapAllowed (current : Pitch) (maxLeap : Option Int) (p : Pitch) : Bool :=
  match maxLeap with
  | some semitones => !((((p.midi - current.midi).natAbs : Int)) > semitones)
  | none => true

/-- Weight after the stepwise-preference multiplication of select_next_pitch
(lines 212-221): base 1.0 times the stepwise factor. -/
def candidateStepWeight (preferStepwise : ℚ) (stepDistance : Nat) : ℚ :=
  if stepDistance ≤ 1 then 1 * (1 + preferStepwise * 2)
  else if stepDistance = 2 then 1 * (1 + preferStepwise * 0.5)
  else 1 * (1 - preferStepwise * 0.3)

/-- The sequential weight computation of select_next_pitch (lines 212-232),
for the candidate with scale index i. -/
def candidateWeight (current : Pitch) (currentIdx : Nat) (bias : ℚ)
    (contour : Option ContourType) (preferStepwise : ℚ) (i : Nat) (p : Pitch) : ℚ :=
  if p.midi > current.midi ∧ 0 < bias then
    candidateStepWeight preferStepwise (((i : Int) - (currentIdx : Int)).natAbs) * (1 + bias)
  else if p.midi < current.midi ∧ bias < 0 then
    candidateStepWeight preferStepwise (((i : Int) - (currentIdx : Int)).natAbs) * (1 - bias)
  else if p.midi = current.midi then
    (if contour = some ContourType.static then
      candidateStepWeight preferStepwise (((i : Int) - (currentIdx : Int)).natAbs) * 1.5
    else candidateStepWeight preferStepwise (((i : Int) - (currentIdx : Int)).natAbs) * 0.5)
  else candidateStepWeight preferStepwise (((i : Int) - (currentIdx : Int)).natAbs)

/-- The candidate list built by select_next_pitch (lines 199-235): enumerate
scale pitches, skip those beyond the leap bound, keep (pitch, weight) pairs
with positive weight. -/
def buildCandidates (current : Pitch) (scalePitches : List Pitch) (bias : ℚ)
    (contour : Option ContourType) (preferStepwise : ℚ) (maxLeap : Option Int)
    (currentIdx : Nat) : List (Pitch × ℚ) :=
  scalePitches.enum.foldl (fun candidates ip =>
    if leapAllowed current maxLeap ip.2 then
      let weight := candidateWeight current currentIdx bias contour preferStepwise ip.1 ip.2
      if weight > 0 then candidates ++ [(ip.2, weight)] else candidates
    else candidates) []

/-- The cumulative-weight scan of select_next_pitch (lines 245-249); after the
loop the source returns the last candidate. -/
def pickWeighted (r : ℚ) (last : Pitch) : ℚ → List (Pitch × ℚ) → Pitch
  | _, [] => last
  | cum, c :: rest => if r ≤ cum + c.2 then c.1 else pickWeighted r last (cum + c.2) rest

/-- select_next_pitch of melody.py. -/
def select_next_pitch (waveFn : ℚ → ℚ) (current : Pitch) (scalePitches : List Pitch)
    (positionRatio : ℚ) (contour : Option ContourType) (preferStepwise : ℚ)
    (maxLeap : Option Int) (rng : Rng) : Pitch × Rng :=
  match buildCandidates current scalePitches
      (get_contour_bias waveFn positionRatio contour) contour preferStepwise maxLeap
      (currentScaleIdx current scalePitches) with
  | [] => (current, rng)
  | c :: cs =>
    (pickWeighted ((rngNext rng).1 * ((c :: cs).map Prod.snd).sum) (cs.getLastD c).1
      0 (c :: cs), (rngNext rng).2)

/-- The candidate weight exactly as the spec words it (section 4.2 of the
spec, quoted by claim C7): base 1.0 times a stepwise factor times a contour
factor. -/
def claimStepFactor (preferStepwise : ℚ) (stepDistance : Nat) : ℚ :=
  if stepDistance ≤ 1 then 1 + 2 * preferStepwise
  else if stepDistance = 2 then 1 + 0.5 * preferStepwise
  else 1 - 0.3 * preferStepwise

def claimContourFactor (current : Pitch) (bias : ℚ) (contour : Option ContourType)
    (p : Pitch) : ℚ :=
  if p.midi > current.midi ∧ 0 < bias then 1 + bias
  else if p.midi < current.midi ∧ bias < 0 then 1 - bias
  else if p.midi = current.midi then
    (if contour = some ContourType.static then 1.5 else 0.5)
  else 1

def claimWeight (current : Pitch) (currentIdx : Nat) (bias : ℚ)
    (contour : Option ContourType) (preferStepwise : ℚ) (i : Nat) (p : Pitch) : ℚ :=
  1 * claimStepFactor preferStepwise (((i : Int) - (currentIdx : Int)).natAbs) *
    claimContourFactor current bias contour p

/-- The candidate list as claim C7 describes it: every scale pitch within the
leap bound, paired with the claimed weight, surviving only when positive. -/
def claimCandidates (current : Pitch) (scalePitches : List Pitch) (bias : ℚ)
    (contour : Option ContourType) (preferStepwise : ℚ) (maxLeap : Option Int)
    (currentIdx : Nat) : List (Pitch × ℚ) :=
  scalePitches.enum.filterMap (fun ip =>
    if leapAllowed current maxLeap ip.2 then
      (if 0 < claimWeight current currentIdx bias contour preferStepwise ip.1 ip.2
        then some (ip.2, claimWeight current currentIdx bias contour preferStepwise ip.1 ip.2)
        else none)
    else none)

theorem candidateWeight_eq_claimWeight (current : Pitch) (currentIdx : Nat)
    (bias : ℚ) (contour : Option ContourType) (preferStepwise : ℚ) (i : Nat)
    (p : Pitch) :
    candidateWeight current currentIdx bias contour preferStepwise i p =
      claimWeight current currentIdx bias contour preferStepwise i p := by
  unfold candidateWeight claimWeight claimStepFactor claimContourFactor
    candidateStepWeight
  split_ifs <;> ring

theorem foldl_ext_gen (f g : β → α → β) (l : List α)
    (H : ∀ acc x, f acc x = g acc x) : ∀ acc, l.foldl f acc = l.foldl g acc := by
  induction l with
  | nil => intro acc; rfl
  | cons x xs ih =>
    intro acc
    simp only [List.foldl_cons, H acc x, ih]

theorem snd_mem_of_mem_enum {l : List α} {ip : Nat × α} (h : ip ∈ l.enum) :
    ip.2 ∈ l := by
  rw [List.mem_enum_iff_getElem?] at h
  exact List.getElem?_mem h

theorem foldl_condAppend_eq_filterMap (g : α → Option β) (l : List α) :
    ∀ acc : List β,
      l.foldl (fun acc x => match g x with | some y => acc ++ [y] | none => acc) acc
        = acc ++ l.filterMap g := by
  induction l with
  | nil => intro acc; simp
  | cons x xs ih =>
    intro acc
    simp only [List.foldl_cons, List.filterMap_cons]
    cases hg : g x with
    | none => simpa using ih acc
    | some y => simpa using ih (acc ++ [y])

theorem buildCandidates_eq_claimCandidates (current : Pitch)
    (scalePitches : List Pitch) (bias : ℚ) (contour : Option ContourType)
    (preferStepwise : ℚ) (maxLeap : Option Int) (currentIdx : Nat) :
    buildCandidates current scalePitches bias contour preferStepwise maxLeap currentIdx
      = claimCandidates current scalePitches bias contour preferStepwise maxLeap
          currentIdx := by
  unfold buildCandidates claimCandidates
  suffices h : ∀ (l : List (Nat × Pitch)) (acc : List (Pitch × ℚ)),
      l.foldl (fun candidates ip =>
        if leapAllowed current maxLeap ip.2 then
          (if candidateWeight current currentIdx bias contour preferStepwise ip.1 ip.2 > 0
            then candidates ++ [(ip.2, candidateWeight current currentIdx bias contour preferStepwise ip.1 ip.2)]
            else candidates)
        else candidates) acc
      = acc ++ l.filterMap (fun ip =>
          if leapAllowed current maxLeap ip.2 then
            (if 0 < claimWeight current currentIdx bias contour preferStepwise ip.1 ip.2
              then some (ip.2, claimWeight current currentIdx bias contour preferStepwise ip.1 ip.2)
              else none)
          else none) by
    simpa using h scalePitches.enum []
  intro l
  induction l with
  | nil => intro acc; simp
  | cons ip rest ih =>
    intro acc
    simp only [List.foldl_cons, List.filterMap_cons]
    rw [candidateWeight_eq_claimWeight]
    by_cases h1 : leapAllowed current maxLeap ip.2
    · simp only [h1, if_true]
      by_cases h2 : 0 < claimWeight current currentIdx bias contour preferStepwise ip.1 ip.2
      · simp only [gt_iff_lt, h2, if_true, ih]
        simp
      · simp only [gt_iff_lt, h2, if_false, ih]
    · simp only [h1, Bool.false_eq_true, if_false, ih]

theorem buildCandidates_subset (current : Pitch) (scalePitches : List Pitch)
    (bias : ℚ) (contour : Option ContourType) (preferStepwise : ℚ)
    (maxLeap : Option Int) (currentIdx : Nat) :
    ∀ z ∈ buildCandidates current scalePitches bias contour preferStepwise maxLeap
      currentIdx, z.1 ∈ scalePitches := by
  intro z hz
  rw [buildCandidates_eq_claimCandidates] at hz
  unfold claimCandidates at hz
  rcases List.mem_filterMap.mp hz with ⟨ip, hip, hsome⟩
  by_cases h1 : leapAllowed current maxLeap ip.2
  · simp only [h1, if_true] at hsome
    by_cases h2 : 0 < claimWeight current currentIdx bias contour preferStepwise ip.1 ip.2
    · simp only [h2, if_true, Option.some.injEq] at hsome
      rw [← hsome]
      exact snd_mem_of_mem_enum hip
    · simp [h2] at hsome
  · simp [h1] at hsome

theorem pickWeighted_mem (r : ℚ) (last : Pitch) :
    ∀ (cum : ℚ) (l : List (Pitch × ℚ)),
      pickWeighted r last cum l = last ∨ pickWeighted r last cum l ∈ l.map Prod.fst := by
  intro cum l
  induction l generalizing cum with
  | nil => left; rfl
  | cons c cs ih =>
    simp only [pickWeighted]
    by_cases hc : r ≤ cum + c.2
    · right; simp [hc]
    · simp only [hc, if_false]
      rcases ih (cum + c.2) with h | h
      · left; exact h
      · right; simp only [List.map_cons, List.mem_cons]; right; exact h

/-- The walk selector returns a scale pitch or the current pitch (C10 part a,
also used for the melody invariants). -/
theorem select_next_pitch_mem (waveFn : ℚ → ℚ) (current : Pitch)
    (scalePitches : List Pitch) (positionRatio : ℚ) (contour : Option ContourType)
    (preferStepwise : ℚ) (maxLeap : Option Int) (rng : Rng) :
    (select_next_pitch waveFn current scalePitches positionRatio contour
        preferStepwise maxLeap rng).1 ∈ scalePitches ∨
      (select_next_pitch waveFn current scalePitches positionRatio contour
        preferStepwise maxLeap rng).1 = current := by
  cases hc : buildCandidates current scalePitches
      (get_contour_bias waveFn positionRatio contour) contour preferStepwise maxLeap
      (currentScaleIdx current scalePitches) with
  | nil =>
    right
    simp only [select_next_pitch, hc]
  | cons c cs =>
    have hsub := buildCandidates_subset current scalePitches
      (get_contour_bias waveFn positionRatio contour) contour preferStepwise maxLeap
      (currentScaleIdx current scalePitches)
    rw [hc] at hsub
    left
    simp only [select_next_pitch, hc]
    rcases pickWeighted_mem ((rngNext rng).1 * ((c :: cs).map Prod.snd).sum)
        (cs.getLastD c).1 0 (c :: cs) with h | h
    · rw [h]
      have hlast : cs.getLastD c ∈ c :: cs := List.getLastD_mem_cons cs c
      exact hsub _ hlast
    · rcases List.mem_map.mp h with ⟨z, hz, hz1⟩
      rw [← hz1]
      exact hsub z hz

/-- External key object: the tonic name (k.tonic.name) and the successive
per-octave outputs of sc.getPitches that the while-loop of
get_scale_pitches_in_range traverses (the loop bounds are determined by the
external pitch constructors, so the octave batches are a parameter). -/
structure KeyModel where
  tonicName : String
  octs : List (List Pitch)

/-- get_scale_pitches_in_range of melody.py: raise InvalidRangeError when
low.midi >= high.midi, else collect the in-range pitches octave batch by
octave batch, skipping duplicate midi values, and sort by midi. -/
def get_scale_pitches_in_range (k : KeyModel) (low high : Pitch) :
    Except GenError (List Pitch) :=
  if low.midi ≥ high.midi then throw .invalidRange
  else
    pure (pySortAsc (fun p => p.midi)
      (k.octs.foldl (fun pitches oct =>
        oct.foldl (fun pitches p =>
          if low.midi ≤ p.midi ∧ p.midi ≤ high.midi ∧
              (pitches.any (fun e => e.midi == p.midi)) = false
          then pitches ++ [p] else pitches) pitches) []))

theorem scale_collect_inner_bounds (low high : Pitch) (oct : List Pitch) :
    ∀ acc : List Pitch,
      (∀ q ∈ acc, low.midi ≤ q.midi ∧ q.midi ≤ high.midi) →
      ∀ q ∈ oct.foldl (fun pitches p =>
          if low.midi ≤ p.midi ∧ p.midi ≤ high.midi ∧
              (pitches.any (fun e => e.midi == p.midi)) = false
          then pitches ++ [p] else pitches) acc,
        low.midi ≤ q.midi ∧ q.midi ≤ high.midi := by
  induction oct with
  | nil => intro acc hacc; simpa using hacc
  | cons p rest ih =>
    intro acc hacc
    simp only [List.foldl_cons]
    by_cases hc : low.midi ≤ p.midi ∧ p.midi ≤ high.midi ∧
        (acc.any (fun e => e.midi == p.midi)) = false
    · simp only [hc, if_true]
      refine ih _ ?_
      intro q hq
      rcases List.mem_append.mp hq with hq | hq
      · exact hacc q hq
      · rcases List.mem_singleton.mp hq with rfl
        exact ⟨hc.1, hc.2.1⟩
    · simp only [hc, if_false]
      exact ih _ hacc

theorem scale_collect_bounds (low high : Pitch) (octs : List (List Pitch)) :
    ∀ acc : List Pitch,
      (∀ q ∈ acc, low.midi ≤ q.midi ∧ q.midi ≤ high.midi) →
      ∀ q ∈ octs.foldl (fun pitches oct =>
          oct.foldl (fun pitches p =>
            if low.midi ≤ p.midi ∧ p.midi ≤ high.midi ∧
                (pitches.any (fun e => e.midi == p.midi)) = false
            then pitches ++ [p] else pitches) pitches) acc,
        low.midi ≤ q.midi ∧ q.midi ≤ high.midi := by
  induction octs with
  | nil => intro acc hacc; simpa using hacc
  | cons oct rest ih =>
    intro acc hacc
    simp only [List.foldl_cons]
    exact ih _ (scale_collect_inner_bounds low high oct acc hacc)

/-- Every realized scale pitch lies within the inclusive range. -/
theorem get_scale_pitches_in_range_bounds (k : KeyModel) (low high : Pitch)
    (l : List Pitch) (h : get_scale_pitches_in_range k low high = Except.ok l) :
    ∀ p ∈ l, low.midi ≤ p.midi ∧ p.midi ≤ high.midi := by
  unfold get_scale_pitches_in_range at h
  by_cases hge : low.midi ≥ high.midi
  · simp only [hge, if_true] at h
    cases h
  · simp only [hge, if_false] at h
    intro p hp
    have hl : l = pySortAsc (fun p => p.midi)
        (k.octs.foldl (fun pitches oct =>
          oct.foldl (fun pitches p =>
            if low.midi ≤ p.midi ∧ p.midi ≤ high.midi ∧
                (pitches.any (fun e => e.midi == p.midi)) = false
            then pitches ++ [p] else pitches) pitches) []) := by
      cases h; rfl
    rw [hl] at hp
    rw [mem_pySortAsc] at hp
    exact scale_collect_bounds low high k.octs [] (by simp) p hp

/-- MelodyRequest, with external string formats already resolved: the
validated time signature "b/u" as its two integers, note names as Pitch
values, the max-leap interval as its semitone count. -/
structure MelodyRequest where
  lengthMeasures : Nat
  tsBeats : Nat
  tsUnit : Nat
  rangeLow : Pitch
  rangeHigh : Pitch
  contour : Option ContourType
  rhythmicDensity : RhythmicDensity
  startNote : Option Pitch
  endNote : Option Pitch
  avoidLeapsGreaterThan : Option Int
  preferStepwise : ℚ
  seed : Option Int
  maxAttempts : Nat

/-- A generated note: pitch and quarter-note duration. -/
structure MNote where
  pitch : Pitch
  dur : ℚ
deriving DecidableEq, Repr

/-- Loop state of the attempt loop in generate_melody (lines 294-386):
the done flag models the break statement. -/
structure AttemptState where
  done : Bool
  warns : List String
  best : Option (List MNote)
  bestScore : Int
  rng : Rng

/-- Start-pitch selection of an attempt (melody.py lines 301-319). -/
def pickStart (k : KeyModel) (req : MelodyRequest) (scalePitches : List Pitch)
    (attempt : Nat) (warns : List String) (rng : Rng) :
    Pitch × List String × Rng :=
  match req.startNote with
  | some sp =>
    if scalePitches.any (fun p => p.midi == sp.midi) then (sp, warns, rng)
    else
      let near := pyMinD (fun p => ((p.midi - sp.midi).natAbs : Int)) scalePitches
        defaultPitch
      (near, warns ++ (if attempt = 0 then ["START_NOTE_ADJUSTED"] else []), rng)
  | none =>
    let tonics := scalePitches.filter (fun p => p.name == k.tonicName)
    if tonics ≠ [] then
      let c := rngChoice tonics defaultPitch rng
      (c.1, warns, c.2)
    else
      let c := rngChoice scalePitches defaultPitch rng
      (c.1, warns, c.2)

/-- The slot-by-slot walk of an attempt (melody.py lines 322-338): emit the
current pitch with the slot duration, then move via select_next_pitch except
after the last slot. -/
def walkMelody (waveFn : ℚ → ℚ) (req : MelodyRequest) (scalePitches : List Pitch)
    (rhythm : List ℚ) (start : Pitch) (rng : Rng) : List MNote × Rng :=
  let st := rhythm.enum.foldl (fun (st : Pitch × List MNote × Rng) idur =>
    let notes := st.2.1 ++ [⟨st.1, idur.2⟩]
    if idur.1 < rhythm.length - 1 then
      let nxt := select_next_pitch waveFn st.1 scalePitches
        ((idur.1 : ℚ) / (rhythm.length : ℚ)) req.contour req.preferStepwise
        req.avoidLeapsGreaterThan st.2.2
      (nxt.1, notes, nxt.2)
    else (st.1, notes, st.2.2)) (start, [], rng)
  (st.2.1, st.2.2)

/-- End-note handling of an attempt (melody.py lines 340-355); notes[-1] on an
empty melody raises IndexError. -/
def adjustEnd (req : MelodyRequest) (scalePitches : List Pitch) (attempt : Nat)
    (notes : List MNote) (warns : List String) :
    Except GenError (List MNote × List String) :=
  match req.endNote with
  | none => pure (notes, warns)
  | some target =>
    match notes.getLast? with
    | none => throw .indexError
    | some lastNote =>
      if lastNote.pitch.midi == target.midi then pure (notes, warns)
      else
        if scalePitches.any (fun p => p.midi == target.midi) then
          pure (notes.dropLast ++ [⟨target, lastNote.dur⟩], warns)
        else
          let nearest := pyMinD (fun p => ((p.midi - target.midi).natAbs : Int))
            scalePitches defaultPitch
          pure (notes.dropLast ++ [⟨nearest, lastNote.dur⟩],
            warns ++ (if attempt = 0 then ["END_NOTE_ADJUSTED"] else []))

/-- Leap check of the scoring block (melody.py lines 369-378). -/
def leapsOk (semitones : Int) (notes : List MNote) : Bool :=
  (notes.zip notes.tail).all
    (fun pq => (((pq.1.pitch.midi - pq.2.pitch.midi).natAbs : Int)) ≤ semitones)

/-- Attempt scoring (melody.py lines 357-378): +1 when all pitches are within
the requested range, +1 when the leap bound (if any) is respected. -/
def scoreAttempt (req : MelodyRequest) (notes : List MNote) : Int :=
  let score : Int := 0
  let score := if notes.all (fun n =>
      decide (req.rangeLow.midi ≤ n.pitch.midi) &&
        decide (n.pitch.midi ≤ req.rangeHigh.midi))
    then score + 1 else score
  match req.avoidLeapsGreaterThan with
  | none => score
  | some semitones => if leapsOk semitones notes then score + 1 else score

/-- One iteration of the attempt loop (melody.py lines 298-386).  A set done
flag models having left the loop through the break. -/
def attemptStep (waveFn : ℚ → ℚ) (k : KeyModel) (req : MelodyRequest)
    (scalePitches : List Pitch) (rhythm : List ℚ) (st : AttemptState)
    (attempt : Nat) : Except GenError AttemptState :=
  if st.done then pure st
  else
    let s := pickStart k req scalePitches attempt st.warns st.rng
    let w := walkMelody waveFn req scalePitches rhythm s.1 s.2.2
    match adjustEnd req scalePitches attempt w.1 s.2.1 with
    | .error e => .error e
    | .ok ne =>
      let score := scoreAttempt req ne.1
      .ok ⟨score == 2 || (score == 1 && decide (req.avoidLeapsGreaterThan = none)),
        ne.2,
        if score > st.bestScore then some ne.1 else st.best,
        if score > st.bestScore then score else st.bestScore,
        w.2⟩

/-- Python max(l, key=f) for nonempty l: first element with maximal key. -/
def pyMaxBy (f : α → Int) : List α → Option α
  | [] => none
  | x :: xs => some (xs.foldl (fun b y => if f b < f y then y else b) x)

/-- Result of generate_melody: the chosen melody, the seed echoed back, the
warnings, and the actual midi range used (metadata lines 430-447). -/
structure GenResult where
  notes : List MNote
  seedUsed : Int
  warnings : List String
  actualLow : Int
  actualHigh : Int
deriving DecidableEq, Repr

/-- generate_melody of melody.py (lines 254-453), from the parsed key to the
response payload.  Stream export and note formatting are external rendering
and carry no further pitch information. -/
def generate_melody (waveFn : ℚ → ℚ) (seedStream : Int → Nat → ℚ) (freshSeed : Int)
    (k : KeyModel) (req : MelodyRequest) : Except GenError GenResult :=
  match get_scale_pitches_in_range k req.rangeLow req.rangeHigh with
  | .error e => .error e
  | .ok scalePitches =>
    if scalePitches.length < 3 then throw .unsatisfiable
    else
      let seedUsed := match req.seed with
        | some s => s
        | none => freshSeed
      match generate_rhythm_pattern req.rhythmicDensity req.tsBeats req.tsUnit
          req.lengthMeasures ⟨seedStream seedUsed, 0⟩ with
      | .error e => .error e
      | .ok rr =>
        match (List.range req.maxAttempts).foldlM
            (attemptStep waveFn k req scalePitches rr.1) ⟨false, [], none, -1, rr.2⟩ with
        | .error e => .error e
        | .ok finalSt =>
          match finalSt.best with
          | none => throw .couldNotGenerate
          | some bestMelody =>
            match pyMinBy (fun n => n.pitch.midi) bestMelody,
                pyMaxBy (fun n => n.pitch.midi) bestMelody with
            | some lowest, some highest =>
              pure ⟨bestMelody, seedUsed, finalSt.warns, lowest.pitch.midi,
                highest.pitch.midi⟩
            | _, _ => throw .valueError

theorem pickStart_mem (k : KeyModel) (req : MelodyRequest) (sp : List Pitch)
    (attempt : Nat) (warns : List String) (rng : Rng) (hsp : sp ≠ []) :
    (pickStart k req sp attempt warns rng).1.midi ∈ sp.map Pitch.midi := by
  unfold pickStart
  cases hs : req.startNote with
  | some start =>
    by_cases hany : sp.any (fun p => p.midi == start.midi) = true
    · simp only [hany, if_true]
      rcases List.any_eq_true.mp hany with ⟨p, hp, hpe⟩
      have hpm : p.midi = start.midi := by simpa using hpe
      rw [← hpm]
      exact List.mem_map_of_mem _ hp
    · simp only [hany, if_false]
      exact List.mem_map_of_mem _ (pyMinD_mem _ sp _ hsp)
  | none =>
    by_cases hne : sp.filter (fun p => p.name == k.tonicName) ≠ []
    · rw [if_pos hne]
      have := rngChoice_mem (sp.filter (fun p => p.name == k.tonicName))
        defaultPitch rng hne
      exact List.mem_map_of_mem _ (List.mem_of_mem_filter this)
    · rw [if_neg hne]
      exact List.mem_map_of_mem _ (rngChoice_mem sp defaultPitch rng hsp)

theorem walkMelody_mem (waveFn : ℚ → ℚ) (req : MelodyRequest) (sp : List Pitch)
    (rhythm : List ℚ) (start : Pitch) (rng : Rng)
    (hstart : start.midi ∈ sp.map Pitch.midi) :
    ∀ n ∈ (walkMelody waveFn req sp rhythm start rng).1,
      n.pitch.midi ∈ sp.map Pitch.midi := by
  unfold walkMelody
  suffices h : ∀ (l : List (Nat × ℚ)) (cur : Pitch) (acc : List MNote) (rg : Rng),
      cur.midi ∈ sp.map Pitch.midi →
      (∀ n ∈ acc, n.pitch.midi ∈ sp.map Pitch.midi) →
      ∀ n ∈ (l.foldl (fun (st : Pitch × List MNote × Rng) idur =>
          if idur.1 < rhythm.length - 1 then
            ((select_next_pitch waveFn st.1 sp
                ((idur.1 : ℚ) / (rhythm.length : ℚ)) req.contour req.preferStepwise
                req.avoidLeapsGreaterThan st.2.2).1,
              st.2.1 ++ [⟨st.1, idur.2⟩],
              (select_next_pitch waveFn st.1 sp
                ((idur.1 : ℚ) / (rhythm.length : ℚ)) req.contour req.preferStepwise
                req.avoidLeapsGreaterThan st.2.2).2)
          else (st.1, st.2.1 ++ [⟨st.1, idur.2⟩], st.2.2)) (cur, acc, rg)).2.1,
        n.pitch.midi ∈ sp.map Pitch.midi by
    intro n hn
    exact h rhythm.enum start [] rng hstart (by simp) n hn
  intro l
  induction l with
  | nil => intro cur acc rg hcur hacc; simpa using hacc
  | cons idur rest ih =>
    intro cur acc rg hcur hacc
    simp only [List.foldl_cons]
    have haccx : ∀ n ∈ acc ++ [(⟨cur, idur.2⟩ : MNote)],
        n.pitch.midi ∈ sp.map Pitch.midi := by
      intro n hn
      rcases List.mem_append.mp hn with hn | hn
      · exact hacc n hn
      · rcases List.mem_singleton.mp hn with rfl
        exact hcur
    by_cases hlt : idur.1 < rhythm.length - 1
    · simp only [hlt, if_true]
      refine ih _ _ _ ?_ haccx
      rcases select_next_pitch_mem waveFn cur sp
          ((idur.1 : ℚ) / (rhythm.length : ℚ)) req.contour req.preferStepwise
          req.avoidLeapsGreaterThan rg with hm | hm
      · exact List.mem_map_of_mem _ hm
      · rw [hm]; exact hcur
    · simp only [hlt, if_false]
      exact ih _ _ _ hcur haccx

theorem walkMelody_length (waveFn : ℚ → ℚ) (req : MelodyRequest) (sp : List Pitch)
    (rhythm : List ℚ) (start : Pitch) (rng : Rng) :
    (walkMelody waveFn req sp rhythm start rng).1.length = rhythm.length := by
  unfold walkMelody
  suffices h : ∀ (l : List (Nat × ℚ)) (cur : Pitch) (acc : List MNote) (rg : Rng),
      (l.foldl (fun (st : Pitch × List MNote × Rng) idur =>
          if idur.1 < rhythm.length - 1 then
            ((select_next_pitch waveFn st.1 sp
                ((idur.1 : ℚ) / (rhythm.length : ℚ)) req.contour req.preferStepwise
                req.avoidLeapsGreaterThan st.2.2).1,
              st.2.1 ++ [⟨st.1, idur.2⟩],
              (select_next_pitch waveFn st.1 sp
                ((idur.1 : ℚ) / (rhythm.length : ℚ)) req.contour req.preferStepwise
                req.avoidLeapsGreaterThan st.2.2).2)
          else (st.1, st.2.1 ++ [⟨st.1, idur.2⟩], st.2.2)) (cur, acc, rg)).2.1.length
        = acc.length + l.length by
    have := h rhythm.enum start [] rng
    simpa using this
  intro l
  induction l with
  | nil => intro cur acc rg; simp
  | cons idur rest ih =>
    intro cur acc rg
    simp only [List.foldl_cons]
    by_cases hlt : idur.1 < rhythm.length - 1
    · simp only [hlt, if_true]
      rw [ih]
      simp only [List.length_append, List.length_cons, List.length_nil]
      omega
    · simp only [hlt, if_false]
      rw [ih]
      simp only [List.length_append, List.length_cons, List.length_nil]
      omega

theorem adjustEnd_ok (req : MelodyRequest) (sp : List Pitch) (attempt : Nat)
    (notes : List MNote) (warns : List String) (hne : notes ≠ []) (hsp : sp ≠ [])
    (hmem : ∀ n ∈ notes, n.pitch.midi ∈ sp.map Pitch.midi) :
    ∃ ne, adjustEnd req sp attempt notes warns = Except.ok ne ∧
      ne.1 ≠ [] ∧ ∀ n ∈ ne.1, n.pitch.midi ∈ sp.map Pitch.midi := by
  unfold adjustEnd
  cases he : req.endNote with
  | none => exact ⟨(notes, warns), rfl, hne, hmem⟩
  | some target =>
    have hlast : ∃ lastNote, notes.getLast? = some lastNote := by
      cases hn : notes.getLast? with
      | none => exact absurd (List.getLast?_eq_none_iff.mp hn) hne
      | some x => exact ⟨x, rfl⟩
    rcases hlast with ⟨lastNote, hlastEq⟩
    rw [hlastEq]
    have hdrop : ∀ (x : MNote), x.pitch.midi ∈ sp.map Pitch.midi →
        (notes.dropLast ++ [x] ≠ [] ∧
          ∀ n ∈ notes.dropLast ++ [x], n.pitch.midi ∈ sp.map Pitch.midi) := by
      intro x hx
      refine ⟨by simp, ?_⟩
      intro n hn
      rcases List.mem_append.mp hn with hn | hn
      · exact hmem n (List.Sublist.mem hn (List.dropLast_sublist notes))
      · rcases List.mem_singleton.mp hn with rfl
        exact hx
    by_cases heq : lastNote.pitch.midi == target.midi
    · simp only [heq, if_true]
      exact ⟨(notes, warns), rfl, hne, hmem⟩
    · simp only [heq, if_false]
      by_cases hany : sp.any (fun p => p.midi == target.midi) = true
      · simp only [hany, if_true]
        refine ⟨_, rfl, ?_⟩
        refine hdrop ⟨target, lastNote.dur⟩ ?_
        rcases List.any_eq_true.mp hany with ⟨p, hp, hpe⟩
        have hpm : p.midi = target.midi := by simpa using hpe
        rw [← hpm]
        exact List.mem_map_of_mem _ hp
      · simp only [hany, if_false]
        refine ⟨_, rfl, ?_⟩
        exact hdrop _ (List.mem_map_of_mem _ (pyMinD_mem _ sp _ hsp))

theorem scoreAttempt_nonneg (req : MelodyRequest) (notes : List MNote) :
    0 ≤ scoreAttempt req notes := by
  unfold scoreAttempt
  cases req.avoidLeapsGreaterThan <;> dsimp only <;> split_ifs <;> omega

/-- Invariant of the attempt loop: a missing best melody means the initial
best score -1, and any recorded best melody is nonempty with every pitch
drawn (by midi) from the scale realization. -/
def MelodyInv (sp : List Pitch) (st : AttemptState) : Prop :=
  (st.best = none → st.bestScore = -1) ∧
  (∀ mel, st.best = some mel →
    mel ≠ [] ∧ ∀ n ∈ mel, n.pitch.midi ∈ sp.map Pitch.midi)

theorem attemptStep_ok (waveFn : ℚ → ℚ) (k : KeyModel) (req : MelodyRequest)
    (sp : List Pitch) (rhythm : List ℚ) (st : AttemptState) (attempt : Nat)
    (hsp : sp ≠ []) (hrh : rhythm ≠ []) (hinv : MelodyInv sp st) :
    ∃ st', attemptStep waveFn k req sp rhythm st attempt = Except.ok st' ∧
      MelodyInv sp st' ∧
      (st.best.isSome → st'.best.isSome) ∧
      (st.done = false → st'.best.isSome) := by
  by_cases hdone : st.done
  · refine ⟨st, ?_, hinv, fun h => h, ?_⟩
    · simp only [attemptStep, hdone, if_true]
      rfl
    · intro h; rw [h] at hdone; cases hdone
  · have hwmem := walkMelody_mem waveFn req sp rhythm
      (pickStart k req sp attempt st.warns st.rng).1
      (pickStart k req sp attempt st.warns st.rng).2.2
      (pickStart_mem k req sp attempt st.warns st.rng hsp)
    have hwne : (walkMelody waveFn req sp rhythm
        (pickStart k req sp attempt st.warns st.rng).1
        (pickStart k req sp attempt st.warns st.rng).2.2).1 ≠ [] := by
      have hl := walkMelody_length waveFn req sp rhythm
        (pickStart k req sp attempt st.warns st.rng).1
        (pickStart k req sp attempt st.warns st.rng).2.2
      intro hcon
      rw [hcon] at hl
      simp only [List.length_nil] at hl
      exact hrh (List.length_eq_zero.mp hl.symm)
    rcases adjustEnd_ok req sp attempt _ (pickStart k req sp attempt st.warns st.rng).2.1
      hwne hsp hwmem with ⟨ne, hneEq, hne1, hneMem⟩
    have hscore : 0 ≤ scoreAttempt req ne.1 := scoreAttempt_nonneg req ne.1
    refine ⟨⟨scoreAttempt req ne.1 == 2 ||
        (scoreAttempt req ne.1 == 1 && decide (req.avoidLeapsGreaterThan = none)),
      ne.2,
      if scoreAttempt req ne.1 > st.bestScore then some ne.1 else st.best,
      if scoreAttempt req ne.1 > st.bestScore then scoreAttempt req ne.1 else st.bestScore,
      (walkMelody waveFn req sp rhythm (pickStart k req sp attempt st.warns st.rng).1
        (pickStart k req sp attempt st.warns st.rng).2.2).2⟩, ?_, ?_, ?_, ?_⟩
    · simp only [attemptStep]
      rw [if_neg hdone, hneEq]
    · constructor
      · intro hbn
        by_cases hgt : scoreAttempt req ne.1 > st.bestScore
        · simp only [hgt, if_true] at hbn
          cases hbn
        · simp only [hgt, if_false] at hbn ⊢
          exact hinv.1 hbn
      · intro mel hmel
        by_cases hgt : scoreAttempt req ne.1 > st.bestScore
        · simp only [hgt, if_true, Option.some.injEq] at hmel
          rw [← hmel]
          exact ⟨hne1, hneMem⟩
        · simp only [hgt, if_false] at hmel
          exact hinv.2 mel hmel
    · intro hsome
      by_cases hgt : scoreAttempt req ne.1 > st.bestScore
      · simp [hgt]
      · simpa [hgt] using hsome
    · intro _
      by_cases hgt : scoreAttempt req ne.1 > st.bestScore
      · simp [hgt]
      · simp only [hgt, if_false]
        have hbs : st.bestScore ≠ -1 := by
          simp only [not_lt] at hgt
          omega
        cases hb : st.best with
        | none => exact absurd (hinv.1 hb) hbs
        | some mel => simp

theorem attemptLoop_ok (waveFn : ℚ → ℚ) (k : KeyModel) (req : MelodyRequest)
    (sp : List Pitch) (rhythm : List ℚ) (hsp : sp ≠ []) (hrh : rhythm ≠ []) :
    ∀ (l : List Nat) (st : AttemptState), MelodyInv sp st →
      ∃ stF, l.foldlM (attemptStep waveFn k req sp rhythm) st = Except.ok stF ∧
        MelodyInv sp stF ∧
        ((st.best.isSome ∨ (l ≠ [] ∧ st.done = false)) → stF.best.isSome) := by
  intro l
  induction l with
  | nil =>
    intro st hinv
    refine ⟨st, by rw [List.foldlM_nil]; rfl, hinv, ?_⟩
    rintro (h | ⟨hcon, _⟩)
    · exact h
    · exact absurd rfl hcon
  | cons a rest ih =>
    intro st hinv
    rcases attemptStep_ok waveFn k req sp rhythm st a hsp hrh hinv with
      ⟨st', hstep, hinv', hsome1, hsome2⟩
    rcases ih st' hinv' with ⟨stF, hfold, hinvF, hsomeF⟩
    refine ⟨stF, ?_, hinvF, ?_⟩
    · rw [List.foldlM_cons, hstep]
      exact hfold
    · rintro (h | ⟨_, hdone⟩)
      · exact hsomeF (Or.inl (hsome1 h))
      · exact hsomeF (Or.inl (hsome2 hdone))

theorem pyMinBy_isSome (f : α → Int) (l : List α) (h : l ≠ []) :
    ∃ x, pyMinBy f l = some x := by
  cases l with
  | nil => exact absurd rfl h
  | cons a as => exact ⟨_, rfl⟩

theorem pyMaxBy_isSome (f : α → Int) (l : List α) (h : l ≠ []) :
    ∃ x, pyMaxBy f l = some x := by
  cases l with
  | nil => exact absurd rfl h
  | cons a as => exact ⟨_, rfl⟩

/-- Master success lemma for generate_melody: under passing validation
(realized scale of at least 3 pitches, a positive time signature, at least
one measure and one attempt) the function returns a nonempty melody all of
whose pitches are drawn, by midi value, from the scale realization. -/
theorem generate_melody_success (waveFn : ℚ → ℚ) (seedStream : Int → Nat → ℚ)
    (freshSeed : Int) (k : KeyModel) (req : MelodyRequest) (sp : List Pitch)
    (hscale : get_scale_pitches_in_range k req.rangeLow req.rangeHigh = Except.ok sp)
    (hlen : 3 ≤ sp.length) (hu : req.tsUnit ≠ 0) (hb : 0 < req.tsBeats)
    (hm : 0 < req.lengthMeasures) (hattempts : 1 ≤ req.maxAttempts) :
    ∃ res, generate_melody waveFn seedStream freshSeed k req = Except.ok res ∧
      res.notes ≠ [] ∧ ∀ n ∈ res.notes, n.pitch.midi ∈ sp.map Pitch.midi := by
  have h3 : ¬ sp.length < 3 := by omega
  have hspne : sp ≠ [] := by
    intro hcon
    rw [hcon] at hlen
    simp at hlen
  rcases generate_rhythm_pattern_spec req.rhythmicDensity req.tsBeats req.tsUnit
      req.lengthMeasures ⟨seedStream (match req.seed with
        | some s => s
        | none => freshSeed), 0⟩ hu with ⟨r, rng', hREq, hRsum, hRpos, hRne⟩
  have htarget : 0 < (req.tsBeats : ℚ) * (4 / req.tsUnit) * req.lengthMeasures := by
    have hb' : (0 : ℚ) < req.tsBeats := by exact_mod_cast hb
    have hm' : (0 : ℚ) < req.lengthMeasures := by exact_mod_cast hm
    have hu' : (0 : ℚ) < req.tsUnit := by
      exact_mod_cast Nat.pos_of_ne_zero hu
    positivity
  have hrne : r ≠ [] := hRne htarget
  have hinit : MelodyInv sp ⟨false, [], none, -1, rng'⟩ := by
    constructor
    · intro _; rfl
    · intro mel hmel; cases hmel
  rcases attemptLoop_ok waveFn k req sp r hspne hrne (List.range req.maxAttempts)
      ⟨false, [], none, -1, rng'⟩ hinit with ⟨stF, hfold, hinvF, hsomeF⟩
  have hlne : List.range req.maxAttempts ≠ [] := by
    intro hcon
    have := List.range_eq_nil.mp hcon
    omega
  have hsome : stF.best.isSome := hsomeF (Or.inr ⟨hlne, rfl⟩)
  rcases Option.isSome_iff_exists.mp hsome with ⟨mel, hmel⟩
  rcases hinvF.2 mel hmel with ⟨hmelne, hmelmem⟩
  rcases pyMinBy_isSome (fun n => n.pitch.midi) mel hmelne with ⟨lowest, hlo⟩
  rcases pyMaxBy_isSome (fun n => n.pitch.midi) mel hmelne with ⟨highest, hhi⟩
  refine ⟨⟨mel, match req.seed with
    | some s => s
    | none => freshSeed, stF.warns, lowest.pitch.midi, highest.pitch.midi⟩, ?_, hmelne, hmelmem⟩
  simp only [generate_melody, hscale]
  rw [if_neg h3]
  simp only [hREq, hfold, hmel, hlo, hhi]
  rfl

/-! Reharmonization (reharmonize.py). -/

inductive HarmonizationStyle
  | classical | jazz | pop | modal
deriving DecidableEq, Repr

inductive ChordRhythm
  | perMeasure | perBeat | perHalf
deriving DecidableEq, Repr

inductive BassMotion
  | stepwise | fifths | pedal | any
deriving DecidableEq, Repr

/-- StyleRules dataclass of reharmonize.py; the cadence-pattern dict is an
insertion-ordered association list, the substitution dict likewise. -/
structure StyleRules where
  allowed_numerals : List String
  prefer_extensions : Bool
  common_progressions : List (List String)
  cadence_patterns : List (String × List String)
  substitutions : List (String × String)
  avoid_parallel_fifths : Bool
  avoid_parallel_octaves : Bool
  prefer_root_position : Bool
  allow_chromatic_approach : Bool
deriving DecidableEq, Repr

def CLASSICAL_RULES : StyleRules :=
  { allowed_numerals := ["I", "ii", "iii", "IV", "V", "vi", "viio"]
    prefer_extensions := false
    common_progressions := [["I", "IV", "V", "I"], ["I", "vi", "IV", "V"],
      ["I", "ii", "V", "I"], ["I", "IV", "ii", "V"]]
    cadence_patterns := [("perfect", ["V", "I"]), ("plagal", ["IV", "I"]),
      ("half", ["ii", "V"]), ("deceptive", ["V", "vi"])]
    substitutions := []
    avoid_parallel_fifths := true
    avoid_parallel_octaves := true
    prefer_root_position := false
    allow_chromatic_approach := false }

def JAZZ_RULES : StyleRules :=
  { allowed_numerals := ["Imaj7", "ii7", "iii7", "IVmaj7", "V7", "vi7", "viio7"]
    prefer_extensions := true
    common_progressions := [["ii7", "V7", "Imaj7"], ["iii7", "vi7", "ii7", "V7"],
      ["Imaj7", "vi7", "ii7", "V7"], ["ii7", "V7", "iii7", "vi7"]]
    cadence_patterns := [("perfect", ["V7", "Imaj7"]), ("half", ["ii7", "V7"]),
      ("turnaround", ["Imaj7", "vi7", "ii7", "V7"])]
    substitutions := [("V7", "bII7"), ("Imaj7", "vi7"), ("IVmaj7", "ii7")]
    avoid_parallel_fifths := false
    avoid_parallel_octaves := false
    prefer_root_position := false
    allow_chromatic_approach := true }

def POP_RULES : StyleRules :=
  { allowed_numerals := ["I", "ii", "IV", "V", "vi"]
    prefer_extensions := false
    common_progressions := [["I", "V", "vi", "IV"], ["I", "IV", "vi", "V"],
      ["vi", "IV", "I", "V"], ["I", "IV", "I", "V"]]
    cadence_patterns := [("perfect", ["V", "I"]), ("plagal", ["IV", "I"])]
    substitutions := []
    avoid_parallel_fifths := true
    avoid_parallel_octaves := true
    prefer_root_position := true
    allow_chromatic_approach := false }

def MODAL_RULES : StyleRules :=
  { allowed_numerals := ["I", "II", "III", "IV", "V", "VI", "VII"]
    prefer_extensions := false
    common_progressions := [["I", "IV", "I"], ["i", "VII", "VI"], ["I", "II", "I"]]
    cadence_patterns := [("modal", ["IV", "I"]), ("plagal", ["IV", "I"])]
    substitutions := []
    avoid_parallel_fifths := false
    avoid_parallel_octaves := false
    prefer_root_position := false
    allow_chromatic_approach := false }

def STYLE_RULES : HarmonizationStyle → StyleRules
  | .classical => CLASSICAL_RULES
  | .jazz => JAZZ_RULES
  | .pop => POP_RULES
  | .modal => MODAL_RULES

/-- External resolution collaborator for a fixed key: roman-numeral label to
concrete pitches (roman.RomanNumeral(label, key).pitches) and to the bass
midi value (rn.bass().midi); none models the exception the library raises on
labels invalid in the key. -/
structure ResolveEnv where
  pitches : String → Option (List Pitch)
  bassMidi : String → Option Int

/-- Melody element for reharmonization: offset and duration in quarter notes
plus the pitch names the element contributes (one for a note, several for a
chord). -/
structure MElem where
  offset : ℚ
  dur : ℚ
  names : List String
deriving DecidableEq, Repr

/-- While-loop of get_chord_points, with fuel covering the source's
termination (step is at least 1/2 for every reachable time signature; the
source loops forever when the external numerator is 0, a case no claim
touches). -/
def chordPointsLoop (total step : ℚ) : Nat → ℚ → List ℚ → List ℚ
  | 0, _, acc => acc
  | fuel + 1, offset, acc =>
    if offset < total then chordPointsLoop total step fuel (offset + step) (acc ++ [offset])
    else acc

/-- get_chord_points of reharmonize.py. -/
def get_chord_points (total : ℚ) (chordRhythm : ChordRhythm) (tsNum : Nat) : List ℚ :=
  let step : ℚ := match chordRhythm with
    | .perMeasure => tsNum
    | .perHalf => (tsNum : ℚ) / 2
    | .perBeat => 1.0
  chordPointsLoop total step ((Int.toNat ⌈2 * total⌉) + 1) 0 []

/-- Deduplication with kept first occurrence, modelling list(set(..)) whose
order Python leaves unspecified; no score depends on the order. -/
def dedupKeepFirst (l : List String) : List String :=
  l.foldl (fun acc x => if x ∈ acc then acc else acc ++ [x]) []

/-- get_melody_notes_at of reharmonize.py: names of the elements overlapping
the window, deduplicated. -/
def get_melody_notes_at (melody : List MElem) (offset dur : ℚ) : List String :=
  dedupKeepFirst
    (((melody.filter (fun e => e.offset < offset + dur ∧ offset < e.offset + e.dur)).map
      MElem.names).flatten)

/-- One progression of the style contains the (previous, candidate) pair
consecutively (the inner loop of the progression bonus, whose break adds the
bonus at most once per progression). -/
def pairInProgression (prev numeral : String) (prog : List String) : Bool :=
  (prog.zip prog.tail).any (fun pq => pq.1 == prev && pq.2 == numeral)

/-- Chord-tone fit of get_chord_candidates (lines 231-246). -/
def chordFitScore (melodyNotes : List String) (chordPitches : List String) : ℚ :=
  let score := melodyNotes.foldl (fun s note =>
    if chordPitches.contains note then s + 1 else s - 0.3) 0
  if melodyNotes ≠ [] then score / melodyNotes.length else 0.5

/-- The deterministic part of a candidate score in get_chord_candidates
(lines 231-261): chord-tone fit, then the per-progression bonus loop, then
the per-cadence-pattern bonus loop. -/
def candScoreCode (melodyNotes : List String) (rules : StyleRules)
    (previousChord : Option String) (isCadence : Bool) (numeral : String)
    (chordPitches : List String) : ℚ :=
  let score0 := chordFitScore melodyNotes chordPitches
  let score1 := match previousChord with
    | none => score0
    | some prev => rules.common_progressions.foldl (fun s prog =>
        if pairInProgression prev numeral prog then s + 0.3 else s) score0
  if isCadence then
    rules.cadence_patterns.foldl (fun s cp =>
      if cp.2.contains numeral then s + 0.2 else s) score1
  else score1

/-- get_chord_candidates of reharmonize.py (lines 204-271): score every
allowed label that resolves, in order, consuming one uniform jitter draw per
resolved label; sort the result by score descending (stable). -/
def get_chord_candidates (env : ResolveEnv) (melodyNotes : List String)
    (rules : StyleRules) (previousChord : Option String) (isCadence : Bool)
    (rng : Rng) : List (String × ℚ) × Rng :=
  let st := rules.allowed_numerals.foldl (fun (st : List (String × ℚ) × Rng) numeral =>
    match env.pitches numeral with
    | none => st
    | some rnPitches =>
      let u := rngUniform (-0.1) 0.1 st.2
      (st.1 ++ [(numeral, candScoreCode melodyNotes rules previousChord isCadence
        numeral (rnPitches.map Pitch.name) + u.1)], u.2)) ([], rng)
  (pySortDesc (fun c => c.2) st.1, st.2)

/-- Bass-motion bonus of select_chord (lines 307-313). -/
def bassBonus (bassMotion : BassMotion) (iv : Nat) : ℚ :=
  if bassMotion = .stepwise ∧ iv ≤ 2 then 0.2
  else if bassMotion = .fifths ∧ (iv = 5 ∨ iv = 7) then 0.2
  else if bassMotion = .pedal ∧ iv = 0 then 0.3
  else 0

/-- Re-weighting block of select_chord (lines 296-319): any resolution
failure aborts the whole block and the original candidate order is kept. -/
def reweightCandidates (env : ResolveEnv) (candidates : List (String × ℚ))
    (bassMotion : BassMotion) (prevLabel : String) : Option (List (String × ℚ)) := do
  let prevB ← env.bassMidi prevLabel
  let weighted ← candidates.mapM (fun c => do
    let b ← env.bassMidi c.1
    pure (c.1, c.2 + bassBonus bassMotion ((b % 12 - prevB % 12).natAbs)))
  pure (pySortDesc (fun c => c.2) weighted)

/-- Cumulative scan of select_chord (lines 324-331) over weights floored at
0.1; after the loop the source returns candidates[0][0]. -/
def selScan (r : ℚ) (fallback : String) : ℚ → List (String × ℚ) → String
  | _, [] => fallback
  | cum, c :: rest =>
    if r ≤ cum + max 0.1 c.2 then c.1 else selScan r fallback (cum + max 0.1 c.2) rest

/-- select_chord of reharmonize.py (lines 274-333). -/
def select_chord (env : ResolveEnv) (candidates : List (String × ℚ))
    (bassMotion : BassMotion) (previousChord : Option String) (rng : Rng) :
    String × Rng :=
  match candidates with
  | [] => ("I", rng)
  | c0 :: rest =>
    let cands := match previousChord with
      | some prev =>
        if bassMotion ≠ BassMotion.any then
          (match reweightCandidates env (c0 :: rest) bassMotion prev with
            | some w => w
            | none => c0 :: rest)
        else c0 :: rest
      | none => c0 :: rest
    let top := cands.take 3
    let total := (top.map (fun c => max 0.1 c.2)).sum
    (selScan ((rngNext rng).1 * total) ((cands.headD ("I", 0)).1) 0 top,
      (rngNext rng).2)

/-- Index pairs (j, k) with j over curr[:-1] and k over curr[j+1:], as the
nested loops of score_voice_leading enumerate them. -/
def pairIdxList (n : Nat) : List (Nat × Nat) :=
  ((List.range (n - 1)).map (fun j =>
    ((List.range n).filter (fun k => j < k)).map (fun k => (j, k)))).flatten

/-- Parallel-fifth deductions of score_voice_leading (lines 367-375). -/
def fifthsPenalty (curr next : List Int) (score : ℚ) : ℚ :=
  (pairIdxList curr.length).foldl (fun s jk =>
    if (curr.getD jk.2 0 - curr.getD jk.1 0) % 12 == 7 then
      (if jk.1 < next.length ∧ jk.2 < next.length then
        (if (next.getD jk.2 0 - next.getD jk.1 0) % 12 == 7 then s - 0.1 else s)
      else s)
    else s) score

/-- Parallel-octave deductions of score_voice_leading (lines 377-384). -/
def octavesPenalty (curr next : List Int) (score : ℚ) : ℚ :=
  (pairIdxList curr.length).foldl (fun s jk =>
    if curr.getD jk.1 0 == curr.getD jk.2 0 then
      (if jk.1 < next.length ∧ jk.2 < next.length then
        (if next.getD jk.1 0 == next.getD jk.2 0 then s - 0.1 else s)
      else s)
    else s) score

/-- Smoothness adjustment of score_voice_leading (lines 386-396).  When both
chords are empty Python raises ZeroDivisionError at the average, which the
surrounding except swallows after the (vacuous) parallel checks; hence the
nonempty guard. -/
def motionAdjust (curr next : List Int) (score : ℚ) : ℚ :=
  if curr.length = next.length ∧ curr.length ≠ 0 then
    let totalMotion : ℚ := ((curr.zip next).map (fun cn =>
      ((min (((cn.1 - cn.2).natAbs : Int)) (12 - (((cn.1 - cn.2).natAbs : Int))) : Int) : ℚ))).sum
    let avgMotion := totalMotion / curr.length
    if avgMotion ≤ 2 then score + 0.05
    else if avgMotion > 4 then score - 0.05
    else score
  else score

/-- score_voice_leading of reharmonize.py (lines 338-401). -/
def score_voice_leading (env : ResolveEnv) (progression : List String)
    (rules : StyleRules) : ℚ :=
  if progression.length < 2 then 1.0
  else
    let score := (List.range (progression.length - 1)).foldl (fun score i =>
      match env.pitches (progression.getD i ""), env.pitches (progression.getD (i + 1) "") with
      | some currPs, some nextPs =>
        let curr := currPs.map (fun p => p.midi % 12)
        let next := nextPs.map (fun p => p.midi % 12)
        let score := if rules.avoid_parallel_fifths then fifthsPenalty curr next score else score
        let score := if rules.avoid_parallel_octaves then octavesPenalty curr next score else score
        motionAdjust curr next score
      | _, _ => score) 1.0
    max 0 (min 1 score)

/-- Per-slot accumulation of score_chord_melody_fit (lines 428-444): running
total fit and count of slots with melody notes. -/
def cmFitStep (env : ResolveEnv) (melody : List MElem) (chordPoints : List ℚ)
    (tc : ℚ × Nat) (ino : Nat × (String × ℚ)) : ℚ × Nat :=
  match env.pitches ino.2.1 with
  | none => tc
  | some rnPitches =>
    let chordPitches := rnPitches.map Pitch.name
    let dur := if ino.1 < chordPoints.length - 1
      then chordPoints.getD (ino.1 + 1) 0 - ino.2.2
      else 4.0
    let melodyNotes := get_melody_notes_at melody ino.2.2 dur
    if melodyNotes ≠ [] then
      (tc.1 + (melodyNotes.countP (fun n => chordPitches.contains n) : ℚ) / melodyNotes.length,
        tc.2 + 1)
    else tc

/-- score_chord_melody_fit of reharmonize.py (lines 404-449). -/
def score_chord_melody_fit (env : ResolveEnv) (progression : List String)
    (melody : List MElem) (chordPoints : List ℚ) : ℚ :=
  if progression = [] ∨ chordPoints = [] then 0.5
  else
    let tc := (progression.zip chordPoints).enum.foldl
      (cmFitStep env melody chordPoints) (0, 0)
    if tc.2 > 0 then tc.1 / tc.2 else 0.5

/-- The last two labels, Python progression[-2:]. -/
def lastTwo (l : List String) : List String := l.drop (l.length - 2)

/-- Space-joined label sequence as a character list (the source compares
joined strings with the in operator, which can also match across label
boundaries). -/
def joinLabels (ls : List String) : List Char := (String.intercalate " " ls).toList

/-- Contiguous-substring test on character lists, modelling Python str in. -/
def containsSub (need : List Char) : List Char → Bool
  | [] => need.isEmpty
  | c :: rest => need.isPrefixOf (c :: rest) || containsSub need rest

/-- score_style_adherence of reharmonize.py (lines 452-483). -/
def score_style_adherence (progression : List String) (rules : StyleRules) : ℚ :=
  let score : ℚ := 0.5
  let progStr := joinLabels progression
  let score := rules.common_progressions.foldl (fun s common =>
    if containsSub (joinLabels common) progStr then s + 0.2 else s) score
  let score := if progression.length ≥ 2 then
      (if rules.cadence_patterns.any (fun cp =>
          decide (cp.2.length ≥ 2) && decide (lastTwo progression = lastTwo cp.2))
        then score + 0.15 else score)
    else score
  min 1.0 score

/-- Python round to integer: banker's rounding (round half to even), over
exact rationals. -/
def roundHalfEven (q : ℚ) : Int :=
  let f := ⌊q⌋
  let r := q - f
  if r < 1/2 then f
  else if 1/2 < r then f + 1
  else if f % 2 = 0 then f else f + 1

/-- Python round(x, 2). -/
def round2 (q : ℚ) : ℚ := (roundHalfEven (q * 100) : ℚ) / 100

/-- A scored harmonization attempt. -/
structure Harm where
  progression : List String
  vl : ℚ
  cm : ℚ
  styleScore : ℚ
  overall : ℚ
deriving DecidableEq, Repr

/-- A returned harmonization option. -/
structure RankedHarm where
  rank : Nat
  progression : List String
  vl : ℚ
  cm : ℚ
  styleScore : ℚ
  overall : ℚ
deriving DecidableEq, Repr

/-- Deduplication loop of reharmonize (lines 588-596): keep attempts in sorted
order, skipping repeated label sequences, and stop once num_options are
kept. -/
def dedupeGo (n : Nat) : List Harm → List (List String) → List Harm → List Harm
  | [], _, acc => acc
  | h :: rest, seen, acc =>
    if h.progression ∈ seen then
      (if n ≤ acc.length then acc else dedupeGo n rest seen acc)
    else
      (if n ≤ (acc ++ [h]).length then acc ++ [h]
      else dedupeGo n rest (seen ++ [h.progression]) (acc ++ [h]))

def dedupeKeep (n : Nat) (l : List Harm) : List Harm :=
  dedupeGo n l [] []

/-- Per-slot chord choice loop of one reharmonization attempt (lines
531-558). -/
def buildProgression (env : ResolveEnv) (rules : StyleRules) (melody : List MElem)
    (points : List ℚ) (tsNum : Nat) (bassMotion : BassMotion) (rng : Rng) :
    List String × Rng :=
  points.enum.foldl (fun (pr : List String × Rng) io =>
    let dur := if io.1 < points.length - 1
      then points.getD (io.1 + 1) 0 - io.2
      else (tsNum : ℚ)
    let melodyNotes := get_melody_notes_at melody io.2 dur
    let isCadence := points.length - 2 ≤ io.1
    let cands := get_chord_candidates env melodyNotes rules pr.1.getLast? isCadence pr.2
    let sel := select_chord env cands.1 bassMotion pr.1.getLast? cands.2
    (pr.1 ++ [sel.1], sel.2)) ([], rng)

/-- One attempt of the reharmonize loop (lines 527-585): reseed from the
attempt index and the melody hash, build the progression, score it, round
the scores. -/
def mkAttempt (env : ResolveEnv) (seedStream : Int → Nat → ℚ)
    (melody : List MElem) (melodyHash : Int) (points : List ℚ) (tsNum : Nat)
    (rules : StyleRules) (bassMotion : BassMotion) (attempt : Nat) : Harm :=
  let rng : Rng := ⟨seedStream ((attempt : Int) * 1000 + melodyHash % 10000), 0⟩
  let prog := (buildProgression env rules melody points tsNum bassMotion rng).1
  let vl := score_voice_leading env prog rules
  let cm := score_chord_melody_fit env prog melody points
  let ss := score_style_adherence prog rules
  ⟨prog, round2 vl, round2 cm, round2 ss, round2 ((vl + cm + ss) / 3)⟩

/-- The success path of reharmonize (lines 498-636) from the parsed melody and
detected key to the ranked harmonization list.  Chord symbols and MusicXML
rendering are external formatting of the same label sequences.  totalLen is
the external melody.duration.quarterLength, tsNum the external time-signature
numerator, melodyHash the Python hash of the input text. -/
def reharmonize_core (env : ResolveEnv) (seedStream : Int → Nat → ℚ)
    (melody : List MElem) (melodyHash : Int) (totalLen : ℚ) (tsNum : Nat)
    (chordRhythm : ChordRhythm) (style : HarmonizationStyle)
    (bassMotion : BassMotion) (numOptions : Nat) : List RankedHarm :=
  let rules := STYLE_RULES style
  let points := get_chord_points totalLen chordRhythm tsNum
  let harms := (List.range (numOptions * 5)).map
    (mkAttempt env seedStream melody melodyHash points tsNum rules bassMotion)
  let kept := dedupeKeep numOptions (pySortDesc (fun h => h.overall) harms)
  kept.enum.map (fun ih =>
    (⟨ih.1 + 1, ih.2.progression, ih.2.vl, ih.2.cm, ih.2.styleScore,
      ih.2.overall⟩ : RankedHarm))

theorem score_voice_leading_bounds (env : ResolveEnv) (progression : List String)
    (rules : StyleRules) :
    0 ≤ score_voice_leading env progression rules ∧
      score_voice_leading env progression rules ≤ 1 := by
  unfold score_voice_leading
  by_cases h : progression.length < 2
  · rw [if_pos h]
    norm_num
  · rw [if_neg h]
    refine ⟨le_max_left 0 _, max_le (by norm_num) (min_le_left 1 _)⟩

theorem cmFitStep_bounds (env : ResolveEnv) (melody : List MElem)
    (chordPoints : List ℚ) (tc : ℚ × Nat) (ino : Nat × (String × ℚ))
    (h0 : 0 ≤ tc.1) (h1 : tc.1 ≤ tc.2) :
    0 ≤ (cmFitStep env melody chordPoints tc ino).1 ∧
      (cmFitStep env melody chordPoints tc ino).1 ≤
        ((cmFitStep env melody chordPoints tc ino).2 : ℚ) := by
  unfold cmFitStep
  cases hres : env.pitches ino.2.1 with
  | none => exact ⟨h0, h1⟩
  | some rnPitches =>
    dsimp only
    by_cases hmn : get_melody_notes_at melody ino.2.2
        (if ino.1 < chordPoints.length - 1
          then chordPoints.getD (ino.1 + 1) 0 - ino.2.2
          else 4.0) ≠ []
    · rw [if_pos hmn]
      set mn := get_melody_notes_at melody ino.2.2
        (if ino.1 < chordPoints.length - 1
          then chordPoints.getD (ino.1 + 1) 0 - ino.2.2
          else 4.0) with hmndef
      have hlenpos : (0 : ℚ) < mn.length := by
        have hl : 0 < mn.length := List.length_pos.mpr hmn
        exact_mod_cast hl
      have hcount : ((mn.countP (fun n => (rnPitches.map Pitch.name).contains n) : ℚ)) ≤
          (mn.length : ℚ) := by
        exact_mod_cast List.countP_le_length
          (p := fun n => (rnPitches.map Pitch.name).contains n) (l := mn)
      have hratio0 : 0 ≤ ((mn.countP (fun n => (rnPitches.map Pitch.name).contains n) : ℚ)) /
          (mn.length : ℚ) := by positivity
      have hratio1 : ((mn.countP (fun n => (rnPitches.map Pitch.name).contains n) : ℚ)) /
          (mn.length : ℚ) ≤ 1 := by
        rw [div_le_one hlenpos]
        exact hcount
      constructor
      · dsimp only
        linarith
      · dsimp only
        push_cast
        linarith
    · rw [if_neg hmn]
      exact ⟨h0, h1⟩

theorem cmFit_fold_bounds (env : ResolveEnv) (melody : List MElem)
    (chordPoints : List ℚ) (l : List (Nat × (String × ℚ))) :
    ∀ tc : ℚ × Nat, 0 ≤ tc.1 → tc.1 ≤ tc.2 →
      0 ≤ (l.foldl (cmFitStep env melody chordPoints) tc).1 ∧
        (l.foldl (cmFitStep env melody chordPoints) tc).1 ≤
          ((l.foldl (cmFitStep env melody chordPoints) tc).2 : ℚ) := by
  induction l with
  | nil => intro tc h0 h1; exact ⟨h0, h1⟩
  | cons ino rest ih =>
    intro tc h0 h1
    simp only [List.foldl_cons]
    have hstep := cmFitStep_bounds env melody chordPoints tc ino h0 h1
    exact ih _ hstep.1 hstep.2

theorem score_chord_melody_fit_bounds (env : ResolveEnv) (progression : List String)
    (melody : List MElem) (chordPoints : List ℚ) :
    0 ≤ score_chord_melody_fit env progression melody chordPoints ∧
      score_chord_melody_fit env progression melody chordPoints ≤ 1 := by
  unfold score_chord_melody_fit
  by_cases hempty : progression = [] ∨ chordPoints = []
  · rw [if_pos hempty]
    norm_num
  · rw [if_neg hempty]
    dsimp only
    have hmain := cmFit_fold_bounds env melody chordPoints
      (progression.zip chordPoints).enum (0, 0) (le_refl 0) (by norm_num)
    by_cases hcount : ((progression.zip chordPoints).enum.foldl
        (cmFitStep env melody chordPoints) (0, 0)).2 > 0
    · rw [if_pos hcount]
      have hcpos : (0 : ℚ) < (((progression.zip chordPoints).enum.foldl
          (cmFitStep env melody chordPoints) (0, 0)).2 : ℚ) := by
        exact_mod_cast hcount
      constructor
      · exact div_nonneg hmain.1 (le_of_lt hcpos)
      · rw [div_le_one hcpos]
        exact hmain.2
    · rw [if_neg hcount]
      norm_num

theorem score_style_adherence_bounds (progression : List String)
    (rules : StyleRules) :
    0 ≤ score_style_adherence progression rules ∧
      score_style_adherence progression rules ≤ 1 := by
  unfold score_style_adherence
  dsimp only
  have hfold : ∀ (l : List (List String)) (s : ℚ), s ≤ l.foldl (fun s common =>
      if containsSub (joinLabels common) (joinLabels progression) then s + 0.2 else s) s := by
    intro l
    induction l with
    | nil => intro s; exact le_refl s
    | cons c rest ih =>
      intro s
      simp only [List.foldl_cons]
      split_ifs with hc
      · calc s ≤ s + 0.2 := by norm_num
          _ ≤ _ := ih (s + 0.2)
      · exact ih s
  have hbase : (0.5 : ℚ) ≤ rules.common_progressions.foldl (fun s common =>
      if containsSub (joinLabels common) (joinLabels progression) then s + 0.2 else s) 0.5 :=
    hfold rules.common_progressions 0.5
  constructor
  · split_ifs with h1 h2
    · exact le_min (by norm_num) (by linarith)
    · exact le_min (by norm_num) (by linarith)
    · exact le_min (by norm_num) (by linarith)
  · split_ifs <;> exact le_trans (min_le_left _ _) (by norm_num)

theorem intDiv100_bounds (c : Int) (h0 : 0 ≤ c) (h1 : c ≤ 100) :
    0 ≤ (c : ℚ) / 100 ∧ (c : ℚ) / 100 ≤ 1 := by
  constructor
  · apply div_nonneg _ (by norm_num)
    exact_mod_cast h0
  · rw [div_le_one (by norm_num : (0 : ℚ) < 100)]
    exact_mod_cast h1

theorem round2_bounds (q : ℚ) (h0 : 0 ≤ q) (h1 : q ≤ 1) :
    0 ≤ round2 q ∧ round2 q ≤ 1 := by
  unfold round2 roundHalfEven
  dsimp only
  have hf0 : (0 : Int) ≤ ⌊q * 100⌋ := by
    apply Int.floor_nonneg.mpr
    positivity
  have hf100 : ⌊q * 100⌋ ≤ 100 := by
    have h2 : q * 100 ≤ 100 := by linarith
    calc ⌊q * 100⌋ ≤ ⌊(100 : ℚ)⌋ := Int.floor_le_floor h2
      _ = 100 := by norm_num
  by_cases hlt : q * 100 - (⌊q * 100⌋ : ℚ) < 1/2
  · rw [if_pos hlt]
    exact intDiv100_bounds _ hf0 hf100
  · have hf99 : ⌊q * 100⌋ ≤ 99 := by
      rcases lt_or_eq_of_le hf100 with hlt100 | heq100
      · omega
      · exfalso
        apply hlt
        rw [heq100]
        push_cast
        linarith
    rw [if_neg hlt]
    by_cases hgt : 1/2 < q * 100 - (⌊q * 100⌋ : ℚ)
    · rw [if_pos hgt]
      exact intDiv100_bounds _ (by omega) (by omega)
    · rw [if_neg hgt]
      by_cases heven : ⌊q * 100⌋ % 2 = 0
      · rw [if_pos heven]
        exact intDiv100_bounds _ hf0 hf100
      · rw [if_neg heven]
        exact intDiv100_bounds _ (by omega) (by omega)

theorem dedupeGo_sublist (n : Nat) :
    ∀ (l : List Harm) (seen : List (List String)) (acc : List Harm),
      ∃ s, s.Sublist l ∧ dedupeGo n l seen acc = acc ++ s := by
  intro l
  induction l with
  | nil =>
    intro seen acc
    exact ⟨[], List.nil_sublist [], by simp [dedupeGo]⟩
  | cons h rest ih =>
    intro seen acc
    unfold dedupeGo
    by_cases hseen : h.progression ∈ seen
    · rw [if_pos hseen]
      by_cases hlen : n ≤ acc.length
      · rw [if_pos hlen]
        exact ⟨[], List.nil_sublist _, by simp⟩
      · rw [if_neg hlen]
        rcases ih seen acc with ⟨s, hs, heq⟩
        exact ⟨s, hs.cons h, heq⟩
    · rw [if_neg hseen]
      by_cases hlen : n ≤ (acc ++ [h]).length
      · rw [if_pos hlen]
        exact ⟨[h], (List.nil_sublist rest).cons₂ h, rfl⟩
      · rw [if_neg hlen]
        rcases ih (seen ++ [h.progression]) (acc ++ [h]) with ⟨s, hs, heq⟩
        refine ⟨h :: s, hs.cons₂ h, ?_⟩
        rw [heq]
        simp

theorem dedupeGo_length (n : Nat) :
    ∀ (l : List Harm) (seen : List (List String)) (acc : List Harm),
      acc.length < n → (dedupeGo n l seen acc).length ≤ n := by
  intro l
  induction l with
  | nil =>
    intro seen acc hlt
    simpa [dedupeGo] using le_of_lt hlt
  | cons h rest ih =>
    intro seen acc hlt
    unfold dedupeGo
    by_cases hseen : h.progression ∈ seen
    · rw [if_pos hseen]
      by_cases hlen : n ≤ acc.length
      · rw [if_pos hlen]
        exact le_of_lt hlt
      · rw [if_neg hlen]
        exact ih seen acc hlt
    · rw [if_neg hseen]
      by_cases hlen : n ≤ (acc ++ [h]).length
      · rw [if_pos hlen]
        simp only [List.length_append, List.length_cons, List.length_nil]
        omega
      · rw [if_neg hlen]
        apply ih
        simp only [List.length_append, List.length_cons, List.length_nil] at hlen ⊢
        omega

theorem dedupeGo_distinct (n : Nat) :
    ∀ (l : List Harm) (seen : List (List String)) (acc : List Harm),
      (∀ a ∈ acc, a.progression ∈ seen) →
      acc.Pairwise (fun a b => a.progression ≠ b.progression) →
      (dedupeGo n l seen acc).Pairwise (fun a b => a.progression ≠ b.progression) := by
  intro l
  induction l with
  | nil =>
    intro seen acc _ hpair
    simpa [dedupeGo] using hpair
  | cons h rest ih =>
    intro seen acc hsub hpair
    unfold dedupeGo
    by_cases hseen : h.progression ∈ seen
    · rw [if_pos hseen]
      by_cases hlen : n ≤ acc.length
      · rw [if_pos hlen]
        exact hpair
      · rw [if_neg hlen]
        exact ih seen acc hsub hpair
    · rw [if_neg hseen]
      have hpair' : (acc ++ [h]).Pairwise (fun a b => a.progression ≠ b.progression) := by
        rw [List.pairwise_append]
        refine ⟨hpair, List.pairwise_singleton _ _, ?_⟩
        intro a ha b hb
        rcases List.mem_singleton.mp hb with rfl
        intro hcon
        exact hseen (hcon ▸ hsub a ha)
      have hsub' : ∀ a ∈ acc ++ [h], a.progression ∈ seen ++ [h.progression] := by
        intro a ha
        rcases List.mem_append.mp ha with ha | ha
        · exact List.mem_append.mpr (Or.inl (hsub a ha))
        · rcases List.mem_singleton.mp ha with rfl
          exact List.mem_append.mpr (Or.inr (List.mem_singleton.mpr rfl))
      by_cases hlen : n ≤ (acc ++ [h]).length
      · rw [if_pos hlen]
        exact hpair'
      · rw [if_neg hlen]
        exact ih (seen ++ [h.progression]) (acc ++ [h]) hsub' hpair'

/-- Every attempt of the reharmonize loop carries an overall score (a rounded
mean of three component scores each in the unit interval) in the unit
interval. -/
theorem mkAttempt_overall_bounds (env : ResolveEnv) (seedStream : Int → Nat → ℚ)
    (melody : List MElem) (melodyHash : Int) (points : List ℚ) (tsNum : Nat)
    (rules : StyleRules) (bassMotion : BassMotion) (attempt : Nat) :
    0 ≤ (mkAttempt env seedStream melody melodyHash points tsNum rules bassMotion
        attempt).overall ∧
      (mkAttempt env seedStream melody melodyHash points tsNum rules bassMotion
        attempt).overall ≤ 1 := by
  unfold mkAttempt
  dsimp only
  set prog := (buildProgression env rules melody points tsNum bassMotion
    ⟨seedStream ((attempt : Int) * 1000 + melodyHash % 10000), 0⟩).1 with hprog
  have hvl := score_voice_leading_bounds env prog rules
  have hcm := score_chord_melody_fit_bounds env prog melody points
  have hss := score_style_adherence_bounds prog rules
  apply round2_bounds
  · linarith [hvl.1, hcm.1, hss.1]
  · linarith [hvl.2, hcm.2, hss.2]

theorem except_bind_eq_ok {ε α β : Type} {x : Except ε α} {f : α → Except ε β}
    {b : β} (h : x >>= f = Except.ok b) : ∃ a, x = Except.ok a ∧ f a = Except.ok b := by
  cases x with
  | error e => exact absurd h (by simp [Bind.bind, Except.bind])
  | ok a => exact ⟨a, rfl, h⟩

theorem except_bind_eq_error {ε α β : Type} {x : Except ε α} {f : α → Except ε β}
    {e : ε} (h : x >>= f = Except.error e) :
    x = Except.error e ∨ ∃ a, x = Except.ok a ∧ f a = Except.error e := by
  cases x with
  | error e' =>
    left
    have : (Except.error e' : Except ε β) = Except.error e := h
    cases this
    rfl
  | ok a => exact Or.inr ⟨a, rfl, h⟩

theorem adjustEnd_error (req : MelodyRequest) (sp : List Pitch) (attempt : Nat)
    (notes : List MNote) (warns : List String) (e : GenError)
    (h : adjustEnd req sp attempt notes warns = Except.error e) :
    e = GenError.indexError := by
  unfold adjustEnd at h
  cases he : req.endNote with
  | none =>
    simp only [he] at h
    cases h
  | some target =>
    simp only [he] at h
    cases hl : notes.getLast? with
    | none =>
      simp only [hl] at h
      cases h
      rfl
    | some lastNote =>
      simp only [hl] at h
      by_cases heq : lastNote.pitch.midi == target.midi
      · rw [if_pos heq] at h
        cases h
      · rw [if_neg heq] at h
        by_cases hany : sp.any (fun p => p.midi == target.midi) = true
        · rw [if_pos hany] at h
          cases h
        · rw [if_neg hany] at h
          cases h

theorem attemptStep_error (waveFn : ℚ → ℚ) (k : KeyModel) (req : MelodyRequest)
    (sp : List Pitch) (rhythm : List ℚ) (st : AttemptState) (attempt : Nat)
    (e : GenError)
    (h : attemptStep waveFn k req sp rhythm st attempt = Except.error e) :
    e = GenError.indexError := by
  unfold attemptStep at h
  by_cases hdone : st.done
  · rw [if_pos hdone] at h
    cases h
  · rw [if_neg hdone] at h
    dsimp only at h
    cases hadj : adjustEnd req sp attempt
        (walkMelody waveFn req sp rhythm (pickStart k req sp attempt st.warns st.rng).1
          (pickStart k req sp attempt st.warns st.rng).2.2).1
        (pickStart k req sp attempt st.warns st.rng).2.1 with
    | error e' =>
      rw [hadj] at h
      cases h
      exact adjustEnd_error req sp attempt _ _ e hadj
    | ok ne =>
      rw [hadj] at h
      cases h

theorem foldlM_attemptStep_error (waveFn : ℚ → ℚ) (k : KeyModel)
    (req : MelodyRequest) (sp : List Pitch) (rhythm : List ℚ) :
    ∀ (l : List Nat) (st : AttemptState) (e : GenError),
      l.foldlM (attemptStep waveFn k req sp rhythm) st = Except.error e →
      e = GenError.indexError := by
  intro l
  induction l with
  | nil =>
    intro st e h
    rw [List.foldlM_nil] at h
    cases h
  | cons a rest ih =>
    intro st e h
    rw [List.foldlM_cons] at h
    rcases except_bind_eq_error h with h1 | ⟨st', h1, h2⟩
    · exact attemptStep_error waveFn k req sp rhythm st a e h1
    · exact ih st' e h2

theorem attemptStep_ok_isSome (waveFn : ℚ → ℚ) (k : KeyModel) (req : MelodyRequest)
    (sp : List Pitch) (rhythm : List ℚ) (st st' : AttemptState) (attempt : Nat)
    (h : attemptStep waveFn k req sp rhythm st attempt = Except.ok st')
    (hsome : st.best.isSome) : st'.best.isSome := by
  unfold attemptStep at h
  by_cases hdone : st.done
  · rw [if_pos hdone] at h
    cases h
    exact hsome
  · rw [if_neg hdone] at h
    dsimp only at h
    cases hadj : adjustEnd req sp attempt
        (walkMelody waveFn req sp rhythm (pickStart k req sp attempt st.warns st.rng).1
          (pickStart k req sp attempt st.warns st.rng).2.2).1
        (pickStart k req sp attempt st.warns st.rng).2.1 with
    | error e' =>
      rw [hadj] at h
      cases h
    | ok ne =>
      rw [hadj] at h
      cases h
      by_cases hgt : scoreAttempt req ne.1 > st.bestScore
      · simp [hgt]
      · simpa [hgt] using hsome

theorem attemptStep_ok_first (waveFn : ℚ → ℚ) (k : KeyModel) (req : MelodyRequest)
    (sp : List Pitch) (rhythm : List ℚ) (st st' : AttemptState) (attempt : Nat)
    (h : attemptStep waveFn k req sp rhythm st attempt = Except.ok st')
    (hdone : st.done = false) (hbs : st.bestScore = -1) : st'.best.isSome := by
  unfold attemptStep at h
  rw [hdone] at h
  simp only [Bool.false_eq_true, if_false] at h
  cases hadj : adjustEnd req sp attempt
      (walkMelody waveFn req sp rhythm (pickStart k req sp attempt st.warns st.rng).1
        (pickStart k req sp attempt st.warns st.rng).2.2).1
      (pickStart k req sp attempt st.warns st.rng).2.1 with
  | error e' =>
    rw [hadj] at h
    cases h
  | ok ne =>
    rw [hadj] at h
    cases h
    have hscore : 0 ≤ scoreAttempt req ne.1 := scoreAttempt_nonneg req ne.1
    have hgt : scoreAttempt req ne.1 > st.bestScore := by
      rw [hbs]
      omega
    simp [hgt]

theorem foldlM_attemptStep_isSome (waveFn : ℚ → ℚ) (k : KeyModel)
    (req : MelodyRequest) (sp : List Pitch) (rhythm : List ℚ) :
    ∀ (l : List Nat) (st stF : AttemptState),
      l.foldlM (attemptStep waveFn k req sp rhythm) st = Except.ok stF →
      st.best.isSome → stF.best.isSome := by
  intro l
  induction l with
  | nil =>
    intro st stF h hsome
    rw [List.foldlM_nil] at h
    cases h
    exact hsome
  | cons a rest ih =>
    intro st stF h hsome
    rw [List.foldlM_cons] at h
    rcases except_bind_eq_ok h with ⟨st', h1, h2⟩
    exact ih st' stF h2 (attemptStep_ok_isSome waveFn k req sp rhythm st st' a h1 hsome)

/-- With an empty rhythm and no requested end note, an attempt step always
succeeds and its best melody is the previous one or the empty melody (the
walk over an empty rhythm emits no notes). -/
theorem attemptStep_empty_ok (waveFn : ℚ → ℚ) (k : KeyModel) (req : MelodyRequest)
    (sp : List Pitch) (hend : req.endNote = none) (st : AttemptState) (a : Nat) :
    ∃ st', attemptStep waveFn k req sp [] st a = Except.ok st' ∧
      (st'.best = st.best ∨ st'.best = some []) := by
  unfold attemptStep
  by_cases hdone : st.done
  · rw [if_pos hdone]
    exact ⟨st, rfl, Or.inl rfl⟩
  · rw [if_neg hdone]
    dsimp only
    have hadj : adjustEnd req sp a
        (walkMelody waveFn req sp [] (pickStart k req sp a st.warns st.rng).1
          (pickStart k req sp a st.warns st.rng).2.2).1
        (pickStart k req sp a st.warns st.rng).2.1
        = Except.ok ([], (pickStart k req sp a st.warns st.rng).2.1) := by
      unfold adjustEnd
      rw [hend]
      rfl
    rw [hadj]
    dsimp only
    refine ⟨_, rfl, ?_⟩
    dsimp only
    by_cases hs : scoreAttempt req [] > st.bestScore
    · rw [if_pos hs]
      exact Or.inr rfl
    · rw [if_neg hs]
      exact Or.inl rfl

/-- With an empty rhythm and no requested end note, the attempt loop succeeds
and only the empty melody can ever be installed as best. -/
theorem foldlM_attemptStep_empty (waveFn : ℚ → ℚ) (k : KeyModel)
    (req : MelodyRequest) (sp : List Pitch) (hend : req.endNote = none) :
    ∀ (l : List Nat) (st : AttemptState), st.best = none ∨ st.best = some [] →
      ∃ stF, l.foldlM (attemptStep waveFn k req sp []) st = Except.ok stF ∧
        (stF.best = none ∨ stF.best = some []) := by
  intro l
  induction l with
  | nil =>
    intro st hst
    exact ⟨st, rfl, hst⟩
  | cons a rest ih =>
    intro st hst
    rcases attemptStep_empty_ok waveFn k req sp hend st a with ⟨st', hstep, hbest⟩
    have hst' : st'.best = none ∨ st'.best = some [] := by
      rcases hbest with h | h
      · rw [h]
        exact hst
      · exact Or.inr h
    rcases ih st' hst' with ⟨stF, hfold, hbF⟩
    refine ⟨stF, ?_, hbF⟩
    rw [List.foldlM_cons, hstep]
    exact hfold

/-- A validated request whose time signature has a zero numerator (for
example "0/4", which the format check accepts) makes the rhythm target 0
quarter notes: the rhythm is empty, every attempt walks an empty melody,
the best melody is the empty list, and min() over its pitches raises
ValueError in the source (melody.py line 432). -/
theorem generate_melody_zero_beats (waveFn : ℚ → ℚ) (seedStream : Int → Nat → ℚ)
    (freshSeed : Int) (k : KeyModel) (req : MelodyRequest) (sp : List Pitch)
    (hscale : get_scale_pitches_in_range k req.rangeLow req.rangeHigh = Except.ok sp)
    (hlen : 3 ≤ sp.length) (hb0 : req.tsBeats = 0) (hu : req.tsUnit ≠ 0)
    (hend : req.endNote = none) (hatt : 1 ≤ req.maxAttempts) :
    generate_melody waveFn seedStream freshSeed k req
      = Except.error GenError.valueError := by
  have h3 : ¬ sp.length < 3 := by omega
  rcases generate_rhythm_pattern_spec req.rhythmicDensity req.tsBeats req.tsUnit
      req.lengthMeasures ⟨seedStream (match req.seed with
        | some s => s
        | none => freshSeed), 0⟩ hu with ⟨r, rng', hREq, hRsum, hRpos, _⟩
  have htot : ((req.tsBeats : ℚ)) * (4 / (req.tsUnit : ℚ)) * (req.lengthMeasures : ℚ)
      = 0 := by
    rw [hb0]
    push_cast
    ring
  have hr0 : r = [] := by
    cases hr : r with
    | nil => rfl
    | cons d ds =>
      exfalso
      have hd : 0 < d := hRpos d (by rw [hr]; exact List.mem_cons_self d ds)
      have hds : 0 ≤ ds.sum := List.sum_nonneg
        (fun x hx => le_of_lt (hRpos x (by rw [hr]; exact List.mem_cons_of_mem d hx)))
      rw [hr, htot] at hRsum
      simp only [List.sum_cons] at hRsum
      linarith
  subst hr0
  rcases foldlM_attemptStep_empty waveFn k req sp hend (List.range req.maxAttempts)
      ⟨false, [], none, -1, rng'⟩ (Or.inl rfl) with ⟨stF, hfold, hbF⟩
  have hsome : stF.best.isSome := by
    have hfold' := hfold
    rcases List.exists_cons_of_ne_nil (show List.range req.maxAttempts ≠ [] from by
        intro hc
        have := List.range_eq_nil.mp hc
        omega) with ⟨a, rest, hrange⟩
    rw [hrange, List.foldlM_cons] at hfold'
    rcases except_bind_eq_ok hfold' with ⟨st', h1, h2⟩
    exact foldlM_attemptStep_isSome waveFn k req sp [] rest st' stF h2
      (attemptStep_ok_first waveFn k req sp [] _ st' a h1 rfl rfl)
  have hbest : stF.best = some [] := by
    rcases hbF with h | h
    · rw [h] at hsome
      exact absurd hsome (by simp)
    · exact h
  simp only [generate_melody, hscale]
  rw [if_neg h3]
  simp only [hREq, hfold, hbest]
  rfl

/-! Spec-side definitions, written from the spec sentences the claims quote,
to be compared with the source-side definitions above. -/

theorem foldl_bonus_count (p : α → Bool) (bonus : ℚ) (l : List α) :
    ∀ s : ℚ, l.foldl (fun s x => if p x then s + bonus else s) s
      = s + bonus * ((l.filter p).length : ℚ) := by
  induction l with
  | nil => intro s; simp
  | cons x xs ih =>
    intro s
    simp only [List.foldl_cons, List.filter_cons]
    by_cases hx : p x
    · rw [if_pos hx, if_pos hx, ih]
      simp only [List.length_cons]
      push_cast
      ring
    · rw [if_neg hx, if_neg hx, ih]

theorem foldl_hitmiss (p : α → Bool) (l : List α) :
    ∀ s : ℚ, l.foldl (fun s x => if p x then s + 1 else s - 0.3) s
      = s + ((l.filter p).length : ℚ)
        - 0.3 * ((l.filter (fun x => !(p x))).length : ℚ) := by
  induction l with
  | nil => intro s; simp
  | cons x xs ih =>
    intro s
    simp only [List.foldl_cons, List.filter_cons]
    by_cases hx : p x
    · rw [if_pos hx, ih]
      simp only [hx, Bool.not_true, if_false, if_true, List.length_cons]
      push_cast
      ring
    · rw [if_neg hx, ih]
      simp only [hx, Bool.not_false, if_false, if_true, List.length_cons]
      push_cast
      ring

/-- Chord-tone fit exactly as the claim words it: +1.0 per chord-tone melody
note, -0.3 per non-chord tone, divided by the number of melody notes, 0.5
when the slot has no melody notes. -/
def claimChordFit (melodyNotes chordPitches : List String) : ℚ :=
  if melodyNotes = [] then 0.5
  else (((melodyNotes.filter (fun n => chordPitches.contains n)).length : ℚ)
      - 0.3 * ((melodyNotes.filter (fun n => !(chordPitches.contains n))).length : ℚ))
      / (melodyNotes.length : ℚ)

theorem chordFitScore_eq_claim (melodyNotes chordPitches : List String) :
    chordFitScore melodyNotes chordPitches = claimChordFit melodyNotes chordPitches := by
  unfold chordFitScore claimChordFit
  dsimp only
  rw [foldl_hitmiss (fun n => chordPitches.contains n) melodyNotes 0]
  by_cases hmn : melodyNotes = []
  · rw [if_neg (by simpa using hmn), if_pos hmn]
  · rw [if_pos hmn, if_neg hmn]
    rw [zero_add]

/-- Per-label score as the amended claim words it: chord-tone fit, plus 0.3
for each idiomatic progression in which the (previous, candidate) pair
appears consecutively, plus 0.2 for each cadence pattern containing the
candidate when the slot is a cadence, plus the uniform jitter draw; labels
that fail to resolve are excluded, and the labels are scored in style order,
each consuming one jitter draw. -/
def candScoreAmended (melodyNotes : List String) (rules : StyleRules)
    (previousChord : Option String) (isCadence : Bool) (numeral : String)
    (chordPitches : List String) : ℚ :=
  claimChordFit melodyNotes chordPitches
    + (match previousChord with
      | none => 0
      | some prev => 0.3 * ((rules.common_progressions.filter
          (fun prog => pairInProgression prev numeral prog)).length : ℚ))
    + (if isCadence then 0.2 * ((rules.cadence_patterns.filter
        (fun cp => cp.2.contains numeral)).length : ℚ) else 0)

def amendedChordScores (env : ResolveEnv) (melodyNotes : List String)
    (rules : StyleRules) (previousChord : Option String) (isCadence : Bool)
    (rng : Rng) : List (String × ℚ) × Rng :=
  rules.allowed_numerals.foldl (fun (st : List (String × ℚ) × Rng) numeral =>
    match env.pitches numeral with
    | none => st
    | some rnPitches =>
      let u := rngUniform (-0.1) 0.1 st.2
      (st.1 ++ [(numeral, candScoreAmended melodyNotes rules previousChord isCadence
        numeral (rnPitches.map Pitch.name) + u.1)], u.2)) ([], rng)

theorem candScoreCode_eq_amended (melodyNotes : List String) (rules : StyleRules)
    (previousChord : Option String) (isCadence : Bool) (numeral : String)
    (chordPitches : List String) :
    candScoreCode melodyNotes rules previousChord isCadence numeral chordPitches
      = candScoreAmended melodyNotes rules previousChord isCadence numeral
          chordPitches := by
  unfold candScoreCode candScoreAmended
  cases previousChord with
  | none =>
    dsimp only
    by_cases hc : isCadence
    · rw [if_pos hc, if_pos hc,
        foldl_bonus_count (fun cp => cp.2.contains numeral) (0.2 : ℚ)
          rules.cadence_patterns (chordFitScore melodyNotes chordPitches),
        chordFitScore_eq_claim]
      ring
    · rw [if_neg hc, if_neg hc, chordFitScore_eq_claim]
      ring
  | some prev =>
    dsimp only
    have hprog := foldl_bonus_count (fun prog => pairInProgression prev numeral prog)
      (0.3 : ℚ) rules.common_progressions (chordFitScore melodyNotes chordPitches)
    by_cases hc : isCadence
    · rw [if_pos hc, if_pos hc,
        foldl_bonus_count (fun cp => cp.2.contains numeral) (0.2 : ℚ)
          rules.cadence_patterns _, hprog, chordFitScore_eq_claim]
    · rw [if_neg hc, if_neg hc, hprog, chordFitScore_eq_claim]
      ring

/-- Per-label score as claim C3 states it verbatim: a single +0.3 progression
bonus and a single +0.2 cadence bonus. -/
def claimedChordScore (env : ResolveEnv) (melodyNotes : List String)
    (rules : StyleRules) (previousChord : Option String) (isCadence : Bool)
    (jitter : ℚ) (numeral : String) : Option ℚ :=
  match env.pitches numeral with
  | none => none
  | some rnPitches =>
    some (claimChordFit melodyNotes (rnPitches.map Pitch.name)
      + (match previousChord with
        | none => 0
        | some prev => if rules.common_progressions.any
            (fun prog => pairInProgression prev numeral prog) then 0.3 else 0)
      + (if isCadence ∧ rules.cadence_patterns.any (fun cp => cp.2.contains numeral)
          then 0.2 else 0)
      + jitter)

/-- Style adherence as the amended claim words it: 0.5, plus 0.2 for each
idiomatic progression whose space-joined form occurs in the space-joined
label sequence, plus a single 0.15 bonus when the final two labels match the
last two of some cadence pattern, clamped to at most 1. -/
def amendedStyleAdherence (progression : List String) (rules : StyleRules) : ℚ :=
  min 1.0 (0.5
    + 0.2 * ((rules.common_progressions.filter
        (fun common => containsSub (joinLabels common) (joinLabels progression))).length : ℚ)
    + (if progression.length ≥ 2 ∧ rules.cadence_patterns.any (fun cp =>
          decide (cp.2.length ≥ 2) && decide (lastTwo progression = lastTwo cp.2))
        then 0.15 else 0))

/-- Style adherence as claim C6 states it verbatim: a single +0.2 progression
bonus. -/
def claimedStyleAdherence (progression : List String) (rules : StyleRules) : ℚ :=
  min 1.0 (0.5
    + (if rules.common_progressions.any
        (fun common => containsSub (joinLabels common) (joinLabels progression))
        then 0.2 else 0)
    + (if progression.length ≥ 2 ∧ rules.cadence_patterns.any (fun cp =>
          decide (cp.2.length ≥ 2) && decide (lastTwo progression = lastTwo cp.2))
        then 0.15 else 0))

/-! Concrete instances used by witnesses and counterexamples. -/

instance {ε α : Type} [DecidableEq ε] [DecidableEq α] : DecidableEq (Except ε α) :=
  fun x y =>
    match x, y with
    | .error e, .error e' =>
      if h : e = e' then isTrue (by rw [h])
      else isFalse (by intro hc; cases hc; exact h rfl)
    | .error _, .ok _ => isFalse (by intro hc; cases hc)
    | .ok _, .error _ => isFalse (by intro hc; cases hc)
    | .ok a, .ok b =>
      if h : a = b then isTrue (by rw [h])
      else isFalse (by intro hc; cases hc; exact h rfl)

/-- The all-zeros random stream. -/
def rngZero : Rng := ⟨fun _ => 0, 0⟩

/-- Resolution environment in which every label resolves to the empty pitch
set. -/
def envEmptyChords : ResolveEnv := ⟨fun _ => some [], fun _ => none⟩

/-- Resolution environment in which no label resolves. -/
def envNoChords : ResolveEnv := ⟨fun _ => none, fun _ => none⟩

/-- The C major scale realization of the range C4-C5. -/
def cMajorScale : List Pitch :=
  [⟨60, "C"⟩, ⟨62, "D"⟩, ⟨64, "E"⟩, ⟨65, "F"⟩, ⟨67, "G"⟩, ⟨69, "A"⟩,
    ⟨71, "B"⟩, ⟨72, "C"⟩]

/-- C major with one octave batch covering C4-C5. -/
def cMajorKey : KeyModel := ⟨"C", [cMajorScale]⟩

/-- A validated request: C major, C4-C5, one 4/4 measure, medium density,
seed 42, one attempt. -/
def reqStd : MelodyRequest :=
  ⟨1, 4, 4, ⟨60, "C"⟩, ⟨72, "C"⟩, none, .medium, none, none, none, 0.7, some 42, 1⟩

/-- The same request with the validated time signature "4/0": the format
check of the source accepts any digits, and the beat unit 0 divides by zero
in generate_rhythm_pattern. -/
def reqZeroUnit : MelodyRequest :=
  ⟨1, 4, 0, ⟨60, "C"⟩, ⟨72, "C"⟩, none, .medium, none, none, none, 0.7, some 42, 100⟩

/-- The request with the validated time signature "0/4": the format check
accepts a zero numerator, the rhythm target is 0 quarter notes, the best
melody is empty, and min() over its pitches raises ValueError. -/
def reqZeroBeats : MelodyRequest :=
  ⟨1, 0, 4, ⟨60, "C"⟩, ⟨72, "C"⟩, none, .medium, none, none, none, 0.7, some 42, 100⟩

/-! The claims. -/

/-- Claim C1, counterexample: two requests pass input validation (the
time-signature format check of the source accepts any digits around the
slash) and realize 8 scale pitches, yet return no melody.  reqZeroUnit
("4/0") raises ZeroDivisionError inside generate_rhythm_pattern; reqZeroBeats
("0/4", nonzero beat unit) produces an empty rhythm whose best melody is
empty, so min() over its pitches raises ValueError.  Both nonzero-numerator
and nonzero-denominator conditions of the amended claim are therefore
required. -/
theorem C1_counterexample :
    get_scale_pitches_in_range cMajorKey reqZeroUnit.rangeLow reqZeroUnit.rangeHigh
        = Except.ok cMajorScale ∧
    3 ≤ cMajorScale.length ∧ 1 ≤ reqZeroUnit.maxAttempts ∧
    generate_melody (fun _ => 0) (fun _ _ => 0) 0 cMajorKey reqZeroUnit
      = Except.error GenError.zeroDivision ∧
    get_scale_pitches_in_range cMajorKey reqZeroBeats.rangeLow reqZeroBeats.rangeHigh
        = Except.ok cMajorScale ∧
    1 ≤ reqZeroBeats.maxAttempts ∧ reqZeroBeats.tsUnit ≠ 0 ∧
    generate_melody (fun _ => 0) (fun _ _ => 0) 0 cMajorKey reqZeroBeats
      = Except.error GenError.valueError := by
  refine ⟨by decide, by decide, by decide, by decide, by decide, by decide, by decide,
    generate_melody_zero_beats (fun _ => 0) (fun _ _ => 0) 0 cMajorKey reqZeroBeats
      cMajorScale (by decide) (by decide) rfl (by decide) rfl (by decide)⟩

/-- Claim C1 (amended): for every melody request that passes input validation,
whose key and range realize at least 3 scale pitches, and whose validated
time signature has a nonzero numerator and denominator, generate_melody
terminates within at most max_attempts attempts (the attempt loop is a fold
over List.range req.maxAttempts) and returns a melody in which every note's
pitch lies within the inclusive chromatic range [range_low, range_high]. -/
theorem C1_melody_in_range_amended (waveFn : ℚ → ℚ) (seedStream : Int → Nat → ℚ)
    (freshSeed : Int) (k : KeyModel) (req : MelodyRequest) (sp : List Pitch)
    (hscale : get_scale_pitches_in_range k req.rangeLow req.rangeHigh = Except.ok sp)
    (hlen : 3 ≤ sp.length) (hu : req.tsUnit ≠ 0) (hb : 0 < req.tsBeats)
    (hm : 0 < req.lengthMeasures) (hattempts : 1 ≤ req.maxAttempts) :
    ∃ res, generate_melody waveFn seedStream freshSeed k req = Except.ok res ∧
      ∀ n ∈ res.notes,
        req.rangeLow.midi ≤ n.pitch.midi ∧ n.pitch.midi ≤ req.rangeHigh.midi := by
  rcases generate_melody_success waveFn seedStream freshSeed k req sp hscale hlen hu
    hb hm hattempts with ⟨res, hok, _, hmem⟩
  refine ⟨res, hok, ?_⟩
  intro n hn
  rcases List.mem_map.mp (hmem n hn) with ⟨p, hp, hpm⟩
  have hb := get_scale_pitches_in_range_bounds k req.rangeLow req.rangeHigh sp
    hscale p hp
  rw [← hpm]
  exact hb

/-- Claim C1, witness at a concrete validated request. -/
theorem C1_witness :
    ∃ res, generate_melody (fun _ => 0) (fun _ _ => 0) 0 cMajorKey reqStd
        = Except.ok res ∧
      ∀ n ∈ res.notes,
        reqStd.rangeLow.midi ≤ n.pitch.midi ∧ n.pitch.midi ≤ reqStd.rangeHigh.midi :=
  C1_melody_in_range_amended (fun _ => 0) (fun _ _ => 0) 0 cMajorKey reqStd
    cMajorScale (by decide) (by decide) (by decide) (by decide) (by decide) (by decide)

/-- Claim C2: two runs of generate_melody with identical parameters and an
explicit seed produce identical results, whatever ambient entropy (the
freshSeed drawn for unseeded requests) each run would otherwise use: the
random source is seeded once from the request seed and consumed
deterministically. -/
theorem C2_seed_determinism (waveFn : ℚ → ℚ) (seedStream : Int → Nat → ℚ)
    (k : KeyModel) (req : MelodyRequest) (fresh₁ fresh₂ : Int) (s : Int)
    (hseed : req.seed = some s) :
    generate_melody waveFn seedStream fresh₁ k req
      = generate_melody waveFn seedStream fresh₂ k req := by
  simp only [generate_melody, hseed]

/-- Claim C2, witness: the two runs of the concrete seeded request with
different ambient entropy coincide. -/
theorem C2_witness :
    reqStd.seed = some 42 ∧
    generate_melody (fun _ => 0) (fun _ _ => 0) 1 cMajorKey reqStd
      = generate_melody (fun _ => 0) (fun _ _ => 0) 2 cMajorKey reqStd :=
  ⟨rfl, C2_seed_determinism (fun _ => 0) (fun _ _ => 0) cMajorKey reqStd 1 2 42 rfl⟩

/-- Claim C5: for every density tier, valid time signature (nonzero beat
unit) and measure count, the rhythm generator returns positive durations
whose exact sum is tsBeats * (4/tsUnit) * numMeasures quarter notes, and the
sequence is nonempty whenever that target is positive. -/
theorem C5_rhythm_sum (density : RhythmicDensity) (tsBeats tsUnit numMeasures : Nat)
    (rng : Rng) (hu : tsUnit ≠ 0) :
    ∃ r rng', generate_rhythm_pattern density tsBeats tsUnit numMeasures rng
        = Except.ok (r, rng') ∧
      (∀ d ∈ r, 0 < d) ∧
      r.sum = (tsBeats : ℚ) * (4 / tsUnit) * numMeasures ∧
      (0 < (tsBeats : ℚ) * (4 / tsUnit) * numMeasures → r ≠ []) := by
  rcases generate_rhythm_pattern_spec density tsBeats tsUnit numMeasures rng hu with
    ⟨r, rng', hok, hsum, hpos, hne⟩
  exact ⟨r, rng', hok, hpos, hsum, hne⟩

/-- Claim C5, witness: one 4/4 measure at medium density under the zero
stream. -/
theorem C5_witness :
    ∃ r rng', generate_rhythm_pattern RhythmicDensity.medium 4 4 1 rngZero
        = Except.ok (r, rng') ∧
      (∀ d ∈ r, 0 < d) ∧
      r.sum = (4 : ℚ) * (4 / 4) * 1 ∧
      (0 < (4 : ℚ) * (4 / 4) * 1 → r ≠ []) := by
  have h := C5_rhythm_sum RhythmicDensity.medium 4 4 1 rngZero (by decide)
  rcases h with ⟨r, rng', hok, hpos, hsum, hne⟩
  refine ⟨r, rng', hok, hpos, ?_, ?_⟩
  · rw [hsum]
    norm_num
  · intro hpos'
    apply hne
    norm_num

/-- Claim C3, counterexample: with every classical label resolving (to the
empty pitch set), no melody notes, previous chord V and the zero jitter
stream, the code gives the candidate I the score 0.5 + 0.3 + 0.3 - 0.1 = 1.0,
because the pair (V, I) occurs in two idiomatic progressions and the bonus
accumulates per progression; the claimed single-bonus formula with the same
jitter draw (-0.1) gives 0.7. -/
theorem C3_counterexample :
    ("I", (1 : ℚ)) ∈ (get_chord_candidates envEmptyChords [] CLASSICAL_RULES
        (some "V") false rngZero).1 ∧
    claimedChordScore envEmptyChords [] CLASSICAL_RULES (some "V") false
        (-(1/10)) "I" = some (7/10) ∧
    ¬ ((1 : ℚ) = 7/10) := by
  refine ⟨?_, ?_, by norm_num⟩
  · have hscore : candScoreCode [] CLASSICAL_RULES (some "V") false "I"
        (List.map Pitch.name []) + (rngUniform (-0.1) 0.1 rngZero).1 = 1 := by
      rw [candScoreCode_eq_amended]
      have hcount : ((CLASSICAL_RULES.common_progressions.filter
          (fun prog => pairInProgression "V" "I" prog)).length) = 2 := by decide
      unfold candScoreAmended claimChordFit
      norm_num [rngUniform, rngNext, rngZero, hcount]
    unfold get_chord_candidates
    dsimp only
    rw [mem_pySortDesc]
    simp only [CLASSICAL_RULES, envEmptyChords, List.foldl_cons, List.foldl_nil]
    simp only [List.nil_append, List.cons_append, List.append_nil, List.mem_cons]
    left
    rw [Prod.ext_iff]
    exact ⟨rfl, hscore.symm⟩
  · have hany : (CLASSICAL_RULES.common_progressions.any
        (fun prog => pairInProgression "V" "I" prog)) = true := by decide
    unfold claimedChordScore claimChordFit
    simp only [envEmptyChords, hany]
    norm_num

/-- Claim C3 (amended): every allowed-by-style label that resolves under the
key receives the chord-tone fit, plus 0.3 for each idiomatic progression in
which the (previous label, candidate label) pair appears consecutively, plus
0.2 for each cadence pattern containing the candidate when the slot is a
cadence, plus one uniform jitter draw from [-0.1, 0.1]; labels that fail to
resolve are excluded without error, and the result is sorted by score
descending. -/
theorem C3_chord_scores_amended (env : ResolveEnv) (melodyNotes : List String)
    (rules : StyleRules) (previousChord : Option String) (isCadence : Bool)
    (rng : Rng) :
    get_chord_candidates env melodyNotes rules previousChord isCadence rng
      = (pySortDesc (fun c => c.2)
          (amendedChordScores env melodyNotes rules previousChord isCadence rng).1,
        (amendedChordScores env melodyNotes rules previousChord isCadence rng).2) := by
  unfold get_chord_candidates amendedChordScores
  have hfn : (fun (st : List (String × ℚ) × Rng) numeral =>
      match env.pitches numeral with
      | none => st
      | some rnPitches =>
        (st.1 ++ [(numeral, candScoreCode melodyNotes rules previousChord isCadence
          numeral (rnPitches.map Pitch.name) + (rngUniform (-0.1) 0.1 st.2).1)],
          (rngUniform (-0.1) 0.1 st.2).2))
      = (fun (st : List (String × ℚ) × Rng) numeral =>
      match env.pitches numeral with
      | none => st
      | some rnPitches =>
        (st.1 ++ [(numeral, candScoreAmended melodyNotes rules previousChord isCadence
          numeral (rnPitches.map Pitch.name) + (rngUniform (-0.1) 0.1 st.2).1)],
          (rngUniform (-0.1) 0.1 st.2).2)) := by
    funext st numeral
    cases hres : env.pitches numeral with
    | none => simp only [hres]
    | some rnPitches => simp only [hres, candScoreCode_eq_amended]
  rw [hfn]

/-- Claim C6, counterexample: the pop label sequence I V vi IV I V contains
the joined forms of two idiomatic pop progressions (I V vi IV and vi IV I V),
so the code scores it 0.5 + 0.2 + 0.2 = 0.9, while the claimed single-bonus
formula gives 0.7. -/
theorem C6_counterexample :
    score_style_adherence ["I", "V", "vi", "IV", "I", "V"] POP_RULES = 9/10 ∧
    claimedStyleAdherence ["I", "V", "vi", "IV", "I", "V"] POP_RULES = 7/10 ∧
    ¬ ((9/10 : ℚ) = 7/10) := by
  have hcount : ((POP_RULES.common_progressions.filter (fun common =>
      containsSub (joinLabels common)
        (joinLabels ["I", "V", "vi", "IV", "I", "V"]))).length) = 2 := by decide
  have hany : (POP_RULES.cadence_patterns.any (fun cp =>
      decide (cp.2.length ≥ 2) &&
        decide (lastTwo ["I", "V", "vi", "IV", "I", "V"] = lastTwo cp.2))) = false := by
    decide
  have hany2 : (POP_RULES.common_progressions.any (fun common =>
      containsSub (joinLabels common)
        (joinLabels ["I", "V", "vi", "IV", "I", "V"]))) = true := by decide
  refine ⟨?_, ?_, by norm_num⟩
  · unfold score_style_adherence
    dsimp only
    rw [foldl_bonus_count (fun common => containsSub (joinLabels common)
      (joinLabels ["I", "V", "vi", "IV", "I", "V"])) (0.2 : ℚ)
      POP_RULES.common_progressions 0.5]
    rw [hcount, if_pos (by norm_num : (["I", "V", "vi", "IV", "I", "V"] :
      List String).length ≥ 2), hany]
    norm_num
  · unfold claimedStyleAdherence
    rw [hany2, hany]
    norm_num

/-- Claim C6 (amended): the style-adherence score is 0.5, plus 0.2 for each
idiomatic progression whose space-joined form occurs in the space-joined
label sequence, plus a single 0.15 bonus when the final two labels match the
last two elements of some cadence pattern, clamped to at most 1. -/
theorem C6_style_adherence_amended (progression : List String) (rules : StyleRules) :
    score_style_adherence progression rules
      = amendedStyleAdherence progression rules := by
  unfold score_style_adherence amendedStyleAdherence
  dsimp only
  rw [foldl_bonus_count (fun common => containsSub (joinLabels common)
    (joinLabels progression)) (0.2 : ℚ) rules.common_progressions 0.5]
  by_cases h1 : progression.length ≥ 2
  · rw [if_pos h1]
    by_cases h2 : (rules.cadence_patterns.any (fun cp =>
        decide (cp.2.length ≥ 2) && decide (lastTwo progression = lastTwo cp.2))) = true
    · rw [if_pos h2, if_pos ⟨h1, h2⟩]
    · rw [if_neg h2, if_neg (fun hcon => h2 hcon.2)]
      congr 1
      ring
  · rw [if_neg h1, if_neg (fun hcon => h1 hcon.1)]
    congr 1
    ring

/-- Claim C4: every successful reharmonize response returns at most
num_options harmonizations whose roman-numeral sequences are pairwise
distinct, ranked contiguously from 1 with non-increasing overall score, and
every overall score lies in the unit interval. -/
theorem C4_reharmonize_ranking (env : ResolveEnv) (seedStream : Int → Nat → ℚ)
    (melody : List MElem) (melodyHash : Int) (totalLen : ℚ) (tsNum : Nat)
    (chordRhythm : ChordRhythm) (style : HarmonizationStyle)
    (bassMotion : BassMotion) (numOptions : Nat) (hn : 1 ≤ numOptions) :
    (reharmonize_core env seedStream melody melodyHash totalLen tsNum chordRhythm
        style bassMotion numOptions).length ≤ numOptions ∧
    ((reharmonize_core env seedStream melody melodyHash totalLen tsNum chordRhythm
        style bassMotion numOptions).map RankedHarm.progression).Pairwise
      (fun a b => a ≠ b) ∧
    (reharmonize_core env seedStream melody melodyHash totalLen tsNum chordRhythm
        style bassMotion numOptions).map RankedHarm.rank
      = List.range' 1 (reharmonize_core env seedStream melody melodyHash totalLen
          tsNum chordRhythm style bassMotion numOptions).length ∧
    ((reharmonize_core env seedStream melody melodyHash totalLen tsNum chordRhythm
        style bassMotion numOptions).map RankedHarm.overall).Pairwise
      (fun a b => b ≤ a) ∧
    ∀ h ∈ reharmonize_core env seedStream melody melodyHash totalLen tsNum
        chordRhythm style bassMotion numOptions,
      0 ≤ h.overall ∧ h.overall ≤ 1 := by
  unfold reharmonize_core
  dsimp only
  set points := get_chord_points totalLen chordRhythm tsNum with hpoints
  set harms := (List.range (numOptions * 5)).map
    (mkAttempt env seedStream melody melodyHash points tsNum (STYLE_RULES style)
      bassMotion) with hharms
  set kept := dedupeKeep numOptions (pySortDesc (fun h => h.overall) harms) with hkept
  have hkeptlen : kept.length ≤ numOptions := by
    rw [hkept]
    exact dedupeGo_length numOptions _ [] [] (by simp only [List.length_nil]; omega)
  have hkeptsub : ∃ s, s.Sublist (pySortDesc (fun h => h.overall) harms) ∧ kept = s := by
    rcases dedupeGo_sublist numOptions (pySortDesc (fun h => h.overall) harms) [] []
      with ⟨s, hs, heq⟩
    exact ⟨s, hs, by rw [hkept]; exact heq.trans (by simp)⟩
  have hkeptmem : ∀ h ∈ kept, h ∈ harms := by
    rcases hkeptsub with ⟨s, hs, heq⟩
    intro h hh
    rw [heq] at hh
    have := hs.mem hh
    exact (mem_pySortDesc (fun h => h.overall) harms h).mp this
  have houtlen : (kept.enum.map (fun ih =>
      (⟨ih.1 + 1, ih.2.progression, ih.2.vl, ih.2.cm, ih.2.styleScore,
        ih.2.overall⟩ : RankedHarm))).length = kept.length := by
    simp
  refine ⟨?_, ?_, ?_, ?_, ?_⟩
  · rw [houtlen]
    exact hkeptlen
  · have hmapprog : (kept.enum.map (fun ih =>
        (⟨ih.1 + 1, ih.2.progression, ih.2.vl, ih.2.cm, ih.2.styleScore,
          ih.2.overall⟩ : RankedHarm))).map RankedHarm.progression
        = kept.map Harm.progression := by
      rw [List.map_map]
      have : (RankedHarm.progression ∘ (fun (ih : Nat × Harm) =>
          (⟨ih.1 + 1, ih.2.progression, ih.2.vl, ih.2.cm, ih.2.styleScore,
            ih.2.overall⟩ : RankedHarm)))
          = Harm.progression ∘ Prod.snd := rfl
      rw [this, ← List.map_map]
      rw [List.enum_map_snd]
    rw [hmapprog]
    rw [List.pairwise_map]
    rw [hkept]
    exact dedupeGo_distinct numOptions _ [] []
      (by intro a ha; exact absurd ha (List.not_mem_nil a)) List.Pairwise.nil
  · rw [houtlen]
    rw [List.map_map]
    have : (RankedHarm.rank ∘ (fun (ih : Nat × Harm) =>
        (⟨ih.1 + 1, ih.2.progression, ih.2.vl, ih.2.cm, ih.2.styleScore,
          ih.2.overall⟩ : RankedHarm)))
        = (fun i => i + 1) ∘ Prod.fst := rfl
    rw [this, ← List.map_map]
    rw [List.enum_map_fst]
    rw [List.range'_eq_map_range]
    apply List.map_congr_left
    intro i _
    omega
  · have hmapov : (kept.enum.map (fun ih =>
        (⟨ih.1 + 1, ih.2.progression, ih.2.vl, ih.2.cm, ih.2.styleScore,
          ih.2.overall⟩ : RankedHarm))).map RankedHarm.overall
        = kept.map Harm.overall := by
      rw [List.map_map]
      have : (RankedHarm.overall ∘ (fun (ih : Nat × Harm) =>
          (⟨ih.1 + 1, ih.2.progression, ih.2.vl, ih.2.cm, ih.2.styleScore,
            ih.2.overall⟩ : RankedHarm)))
          = Harm.overall ∘ Prod.snd := rfl
      rw [this, ← List.map_map]
      rw [List.enum_map_snd]
    rw [hmapov]
    rw [List.pairwise_map]
    rcases hkeptsub with ⟨s, hs, heq⟩
    rw [heq]
    exact (pairwise_pySortDesc (fun h => h.overall) harms).sublist hs
  · intro h hh
    rcases List.mem_map.mp hh with ⟨ih, hih, hfh⟩
    have hmem : ih.2 ∈ harms := hkeptmem ih.2 (snd_mem_of_mem_enum hih)
    rcases List.mem_map.mp hmem with ⟨attempt, _, hatt⟩
    have hbounds := mkAttempt_overall_bounds env seedStream melody melodyHash points
      tsNum (STYLE_RULES style) bassMotion attempt
    rw [hatt] at hbounds
    have hov : h.overall = ih.2.overall := by rw [← hfh]
    rw [hov]
    exact hbounds

/-- Witness for C4 at a concrete one-note melody with one requested option. -/
theorem C4_witness :
    1 ≤ 1 ∧
    ((reharmonize_core envNoChords (fun _ _ => 0) [⟨0, 1, ["C"]⟩] 0 1 4
        ChordRhythm.perMeasure HarmonizationStyle.classical BassMotion.any
        1).length ≤ 1 ∧
      ((reharmonize_core envNoChords (fun _ _ => 0) [⟨0, 1, ["C"]⟩] 0 1 4
          ChordRhythm.perMeasure HarmonizationStyle.classical BassMotion.any
          1).map RankedHarm.progression).Pairwise (fun a b => a ≠ b) ∧
      (reharmonize_core envNoChords (fun _ _ => 0) [⟨0, 1, ["C"]⟩] 0 1 4
          ChordRhythm.perMeasure HarmonizationStyle.classical BassMotion.any
          1).map RankedHarm.rank
        = List.range' 1 (reharmonize_core envNoChords (fun _ _ => 0)
            [⟨0, 1, ["C"]⟩] 0 1 4 ChordRhythm.perMeasure
            HarmonizationStyle.classical BassMotion.any 1).length ∧
      ((reharmonize_core envNoChords (fun _ _ => 0) [⟨0, 1, ["C"]⟩] 0 1 4
          ChordRhythm.perMeasure HarmonizationStyle.classical BassMotion.any
          1).map RankedHarm.overall).Pairwise (fun a b => b ≤ a) ∧
      ∀ h ∈ reharmonize_core envNoChords (fun _ _ => 0) [⟨0, 1, ["C"]⟩] 0 1 4
          ChordRhythm.perMeasure HarmonizationStyle.classical BassMotion.any 1,
        0 ≤ h.overall ∧ h.overall ≤ 1) :=
  ⟨by decide,
    C4_reharmonize_ranking envNoChords (fun _ _ => 0) [⟨0, 1, ["C"]⟩] 0 1 4
      ChordRhythm.perMeasure HarmonizationStyle.classical BassMotion.any 1
      (by decide)⟩

/-- Claim C7: for a nonempty scale (the selector's domain - on an empty scale
the source raises ValueError while computing the current scale index, and
generate_melody only calls the selector with at least 3 pitches), the
random-walk candidate weights are the product of the base, stepwise, contour
and near-edge factors described by the spec, positives kept in scale order,
and an empty candidate list makes the walk hold the current pitch and leave
the random state untouched. -/
theorem C7_walk_weights (waveFn : ℚ → ℚ) (current : Pitch)
    (scalePitches : List Pitch) (positionRatio : ℚ) (contour : Option ContourType)
    (preferStepwise : ℚ) (maxLeap : Option Int) (rng : Rng)
    ( _hne : scalePitches ≠ []) :
    buildCandidates current scalePitches
        (get_contour_bias waveFn positionRatio contour) contour preferStepwise
        maxLeap (currentScaleIdx current scalePitches)
      = claimCandidates current scalePitches
          (get_contour_bias waveFn positionRatio contour) contour preferStepwise
          maxLeap (currentScaleIdx current scalePitches) ∧
    (buildCandidates current scalePitches
        (get_contour_bias waveFn positionRatio contour) contour preferStepwise
        maxLeap (currentScaleIdx current scalePitches) = [] →
      select_next_pitch waveFn current scalePitches positionRatio contour
        preferStepwise maxLeap rng = (current, rng)) := by
  refine ⟨buildCandidates_eq_claimCandidates current scalePitches
    (get_contour_bias waveFn positionRatio contour) contour preferStepwise
    maxLeap (currentScaleIdx current scalePitches), ?_⟩
  intro hempty
  simp only [select_next_pitch, hempty]

/-- Witness for C7 at a concrete walk state: a nonempty scale whose only
pitch (C6) lies 12 semitones from the current pitch (C4), with a 5-semitone
leap bound (P4), so the filter empties the candidates and the selector holds
the current pitch. -/
theorem C7_witness :
    ([(⟨72, "C"⟩ : Pitch)] ≠ ([] : List Pitch)) ∧
    buildCandidates ⟨60, "C"⟩ [⟨72, "C"⟩]
        (get_contour_bias (fun _ => 0) 0 none) none 0.7 (some 5)
        (currentScaleIdx ⟨60, "C"⟩ [⟨72, "C"⟩])
      = claimCandidates ⟨60, "C"⟩ [⟨72, "C"⟩]
          (get_contour_bias (fun _ => 0) 0 none) none 0.7 (some 5)
          (currentScaleIdx ⟨60, "C"⟩ [⟨72, "C"⟩]) ∧
    select_next_pitch (fun _ => 0) ⟨60, "C"⟩ [⟨72, "C"⟩] 0 none 0.7 (some 5) rngZero
      = (⟨60, "C"⟩, rngZero) :=
  ⟨by decide,
    (C7_walk_weights (fun _ => 0) ⟨60, "C"⟩ [⟨72, "C"⟩] 0 none 0.7 (some 5) rngZero
      (by decide)).1,
    (C7_walk_weights (fun _ => 0) ⟨60, "C"⟩ [⟨72, "C"⟩] 0 none 0.7 (some 5) rngZero
      (by decide)).2 (by decide)⟩

/-- Claim C8: once the scale realizes at least 3 pitches, generate_melody
never fails with could-not-generate: the first attempt already installs a
best melody (its score exceeds the initial best score of -1), so the
max-attempts loop always ends with a best candidate. -/
theorem C8_no_generation_failure (waveFn : ℚ → ℚ) (seedStream : Int → Nat → ℚ)
    (freshSeed : Int) (k : KeyModel) (req : MelodyRequest) (sp : List Pitch)
    (hscale : get_scale_pitches_in_range k req.rangeLow req.rangeHigh = Except.ok sp)
    (hlen : 3 ≤ sp.length) (hattempts : 1 ≤ req.maxAttempts) :
    generate_melody waveFn seedStream freshSeed k req
      ≠ Except.error GenError.couldNotGenerate := by
  have h3 : ¬ sp.length < 3 := by omega
  intro hcon
  simp only [generate_melody, hscale] at hcon
  rw [if_neg h3] at hcon
  cases hrr : generate_rhythm_pattern req.rhythmicDensity req.tsBeats req.tsUnit
      req.lengthMeasures ⟨seedStream (match req.seed with
        | some s => s
        | none => freshSeed), 0⟩ with
  | error e =>
    have hezd : e = GenError.zeroDivision := by
      unfold generate_rhythm_pattern at hrr
      by_cases hu : req.tsUnit = 0
      · rw [if_pos hu] at hrr
        exact (Except.error.inj hrr).symm
      · rw [if_neg hu] at hrr
        exact Except.noConfusion hrr
    simp only [hrr] at hcon
    rw [hezd] at hcon
    exact GenError.noConfusion (Except.error.inj hcon)
  | ok rr =>
    simp only [hrr] at hcon
    cases hfold : (List.range req.maxAttempts).foldlM
        (attemptStep waveFn k req sp rr.1) ⟨false, [], none, -1, rr.2⟩ with
    | error e2 =>
      have he2 := foldlM_attemptStep_error waveFn k req sp rr.1
        (List.range req.maxAttempts) ⟨false, [], none, -1, rr.2⟩ e2 hfold
      simp only [hfold] at hcon
      rw [he2] at hcon
      exact GenError.noConfusion (Except.error.inj hcon)
    | ok stF =>
      simp only [hfold] at hcon
      have hsome : stF.best.isSome := by
        rcases List.exists_cons_of_ne_nil (show List.range req.maxAttempts ≠ []
          from by
            intro hc
            have := List.range_eq_nil.mp hc
            omega) with ⟨a, rest, hr⟩
        rw [hr, List.foldlM_cons] at hfold
        rcases except_bind_eq_ok hfold with ⟨st', h1, h2⟩
        exact foldlM_attemptStep_isSome waveFn k req sp rr.1 rest st' stF h2
          (attemptStep_ok_first waveFn k req sp rr.1 _ st' a h1 rfl rfl)
      rcases Option.isSome_iff_exists.mp hsome with ⟨mel, hmel⟩
      simp only [hmel] at hcon
      cases hlo : pyMinBy (fun n => n.pitch.midi) mel with
      | none =>
        cases hhi : pyMaxBy (fun n => n.pitch.midi) mel with
        | none =>
          simp only [hlo, hhi] at hcon
          exact GenError.noConfusion (Except.error.inj hcon)
        | some highest =>
          simp only [hlo, hhi] at hcon
          exact GenError.noConfusion (Except.error.inj hcon)
      | some lowest =>
        cases hhi : pyMaxBy (fun n => n.pitch.midi) mel with
        | none =>
          simp only [hlo, hhi] at hcon
          exact GenError.noConfusion (Except.error.inj hcon)
        | some highest =>
          simp only [hlo, hhi] at hcon
          exact Except.noConfusion hcon

/-- Witness for C8 at a concrete validated request. -/
theorem C8_witness :
    get_scale_pitches_in_range cMajorKey reqStd.rangeLow reqStd.rangeHigh
        = Except.ok cMajorScale ∧
    3 ≤ cMajorScale.length ∧ 1 ≤ reqStd.maxAttempts ∧
    generate_melody (fun _ => 0) (fun _ _ => 0) 0 cMajorKey reqStd
      ≠ Except.error GenError.couldNotGenerate :=
  ⟨by decide, by decide, by decide,
    C8_no_generation_failure (fun _ => 0) (fun _ _ => 0) 0 cMajorKey reqStd
      cMajorScale (by decide) (by decide) (by decide)⟩

/-- Claim C9: select_chord with an empty candidate list returns the label I
whatever the resolution environment, bass-motion preference, previous chord
or random state, without consuming randomness. -/
theorem C9_empty_candidates_fallback (env : ResolveEnv) (bassMotion : BassMotion)
    (previousChord : Option String) (rng : Rng) :
    select_chord env [] bassMotion previousChord rng = ("I", rng) := rfl

/-- Claim C10: the walk selector returns a scale pitch or holds the current
pitch, and consequently every note after the first of a generated melody has
a pitch drawn from the scale realization. -/
theorem C10_walk_in_scale (waveFn : ℚ → ℚ) (seedStream : Int → Nat → ℚ)
    (freshSeed : Int) (k : KeyModel) (req : MelodyRequest) (sp : List Pitch)
    (hscale : get_scale_pitches_in_range k req.rangeLow req.rangeHigh = Except.ok sp)
    (hlen : 3 ≤ sp.length) (hu : req.tsUnit ≠ 0) (hb : 0 < req.tsBeats)
    (hm : 0 < req.lengthMeasures) (hattempts : 1 ≤ req.maxAttempts) :
    (∀ (current : Pitch) (positionRatio : ℚ) (rng : Rng),
      (select_next_pitch waveFn current sp positionRatio req.contour
          req.preferStepwise req.avoidLeapsGreaterThan rng).1 ∈ sp ∨
        (select_next_pitch waveFn current sp positionRatio req.contour
          req.preferStepwise req.avoidLeapsGreaterThan rng).1 = current) ∧
    ∃ res, generate_melody waveFn seedStream freshSeed k req = Except.ok res ∧
      ∀ n ∈ res.notes.tail, n.pitch.midi ∈ sp.map Pitch.midi := by
  constructor
  · intro current positionRatio rng
    exact select_next_pitch_mem waveFn current sp positionRatio req.contour
      req.preferStepwise req.avoidLeapsGreaterThan rng
  · rcases generate_melody_success waveFn seedStream freshSeed k req sp hscale hlen
      hu hb hm hattempts with ⟨res, hok, _, hmem⟩
    exact ⟨res, hok, fun n hn => hmem n (List.mem_of_mem_tail hn)⟩

/-- Witness for C10 at a concrete validated request. -/
theorem C10_witness :
    (∀ (current : Pitch) (positionRatio : ℚ) (rng : Rng),
      (select_next_pitch (fun _ => 0) current cMajorScale positionRatio
          reqStd.contour reqStd.preferStepwise reqStd.avoidLeapsGreaterThan
          rng).1 ∈ cMajorScale ∨
        (select_next_pitch (fun _ => 0) current cMajorScale positionRatio
          reqStd.contour reqStd.preferStepwise reqStd.avoidLeapsGreaterThan
          rng).1 = current) ∧
    ∃ res, generate_melody (fun _ => 0) (fun _ _ => 0) 0 cMajorKey reqStd
        = Except.ok res ∧
      ∀ n ∈ res.notes.tail, n.pitch.midi ∈ cMajorScale.map Pitch.midi :=
  C10_walk_in_scale (fun _ => 0) (fun _ _ => 0) 0 cMajorKey reqStd cMajorScale
    (by decide) (by decide) (by decide) (by decide) (by decide) (by decide)

end ComposerMCP
